import Mathlib

/-!
# dsh: a job-control shell

A shallow embedding of `src/dsh.c` and `src/dsh.h`.

Conventions of the embedding.

* A C string is a `List Char`; one `Char` stands for one byte.  The terminating
  NUL is the end of the list, so `cmdline[cmdline_pos]` is the head of the
  remaining text and `++cmdline_pos` drops that head.
* The singly linked lists (`job_t.next`, `process_t.next`) are Lean lists in the
  same order; `first_job` is the Registry.
* `argv` is the array of `MAX_ARGS` pointers that `init_process` allocates; a
  store at an index outside it is reported as `Fault.out_of_bounds`.
* A job handed to `free` keeps its place in the list it is linked in and is
  marked by the ghost field `freed`; following the list through such a job is
  reported as `Fault.use_after_free`.
* Passing a NULL `argv[0]` to `strcmp` is reported as `Fault.null_pointer`.
* A job is named by its position in the Registry where the C code compares
  pointers.
* Allocation (`malloc`, `calloc`) is taken to succeed.
* System calls are recorded in a trace; their results come from an explicit
  environment.
-/

namespace Dsh

/-! ## Constants of `dsh.h` -/

/-- Max length of input/output file name specified during I/O redirection. -/
def MAX_LEN_FILENAME : Nat := 80

/-- Max length of the command line. -/
def MAX_LEN_CMDLINE : Nat := 120

/-- Maximum number of arguments to any command. -/
def MAX_ARGS : Nat := 20

def INPUT_FD : Int := 1000
def OUTPUT_FD : Int := 1001
def STDIN_FILENO : Int := 0
def STDOUT_FILENO : Int := 1
def STDERR_FILENO : Int := 2

/-- The value of `SIGCONT` on Linux. -/
def SIGCONT : Int := 18

/-- The libc `isspace` in the C locale: space, `\t`, `\n`, `\v`, `\f`, `\r`. -/
def isspace (c : Char) : Bool :=
  c = ' ' || c = '\t' || c = '\n' || c = '\x0b' || c = '\x0c' || c = '\r'

/-- The libc `WIFSTOPPED`: the low byte of the status is `0x7f`. -/
def WIFSTOPPED (status : Int) : Bool := status % 256 = 127

/-! ## Data model (`dsh.h`) -/

/-- The `process_t` of `dsh.h`; `next` is the tail of the list that holds it. -/
structure process_t where
  argc : Nat
  argv : List (Option (List Char))
  pid : Int
  completed : Bool
  stopped : Bool
  status : Int
deriving DecidableEq, Repr

/-- The `job_t` of `dsh.h`; `next` is the tail of the list that holds it.
`commandinfo` (display text only) and `tmodes` are not modelled.  `freed` is a
ghost field: the storage of this job has been handed to `free`. -/
structure job_t where
  first_process : List process_t
  pgid : Int
  notified : Bool
  mystdin : Int
  mystdout : Int
  mystderr : Int
  bg : Bool
  ifile : Option (List Char)
  ofile : Option (List Char)
  freed : Bool
deriving DecidableEq, Repr

/-- How a run of the model can fail to be a run of the C program. -/
inductive Fault where
  | out_of_bounds
  | use_after_free
  | null_pointer
  | out_of_fuel
deriving DecidableEq, Repr

instance instDecidableEqExcept {ε α : Type} [DecidableEq ε] [DecidableEq α] :
    DecidableEq (Except ε α)
  | .ok a, .ok b => if h : a = b then isTrue (by rw [h]) else isFalse (by intro e; cases e; exact h rfl)
  | .error a, .error b =>
    if h : a = b then isTrue (by rw [h]) else isFalse (by intro e; cases e; exact h rfl)
  | .ok _, .error _ => isFalse (by intro e; cases e)
  | .error _, .ok _ => isFalse (by intro e; cases e)

/-! ## Aggregate status -/

/-- The loop of `job_is_stopped` over the pipeline. -/
def job_is_stopped.go : List process_t → Int
  | [] => 1
  | p :: ps => if !p.completed && !p.stopped then 0 else job_is_stopped.go ps

/-- Return true if all processes in the job have stopped or completed. -/
def job_is_stopped (j : job_t) : Int := job_is_stopped.go j.first_process

/-- The loop of `job_is_completed` over the pipeline. -/
def job_is_completed.go : List process_t → Int
  | [] => 1
  | p :: ps => if !p.completed then 0 else job_is_completed.go ps

/-- Return true if all processes in the job have completed. -/
def job_is_completed (j : job_t) : Int := job_is_completed.go j.first_process

/-! ## System calls -/

/-- The system calls of the shell process that the model records. -/
inductive Syscall where
  | kill (pid : Int) (sig : Int)
  | fork
  | setpgid (pid : Int) (pgid : Int)
  | waitpid (pid : Int) (nohang : Bool)
  | tcsetpgrp (pgid : Int)
deriving DecidableEq, Repr

/-- Sends SIGCONT signal to wake up the blocked job.  `killret` is what `kill`
returns; the result is the job, the calls made, and whether `perror` ran. -/
def continue_job (j : job_t) (killret : Int) : job_t × List Syscall × Bool :=
  (j, [Syscall.kill (-j.pgid) SIGCONT], decide (killret < 0))

/-- What the operating system answers during one `spawn_job`: the value of the
`i`-th `fork`, the status that the `i`-th `waitpid` stores (`none` when it
stores nothing: it returned 0 or -1), and the initial content of the
uninitialised local `status`. -/
structure SpawnEnv where
  fork : Nat → Int
  wait : Nat → Option Int
  status0 : Int
  shell_pgid : Int

/-- What both branches of `spawn_job` do with the local `status` after
`waitpid`: `p->status = status`, then `stopped` or `completed` is set. -/
def record_status (p : process_t) (status : Int) : process_t :=
  if WIFSTOPPED status then { p with status := status, stopped := true }
  else { p with status := status, completed := true }

/-- The `for` loop of `spawn_job`, in the shell process.  The state is the
index of the process, the job's `pgid`, the local `status`, and the trace.
`none` means that the shell does not come back from the loop: `fork` failed
(`exit`), or this is the child, which runs `execve` or exits. -/
def spawn_job.go (env : SpawnEnv) (fg : Bool) :
    Nat → Int → Int → List Syscall → List process_t →
    Option (List process_t × Int × List Syscall)
  | _, pgid, _, tr, [] => some ([], pgid, tr)
  | i, pgid, status, tr, p :: ps =>
    if env.fork i = -1 then none
    else if env.fork i = 0 then none
    else
      match spawn_job.go env fg (i + 1) (if pgid ≤ 0 then env.fork i else pgid)
          ((env.wait i).getD status)
          (tr ++ [Syscall.fork,
                  Syscall.setpgid (env.fork i) (if pgid ≤ 0 then env.fork i else pgid)]
            ++ (if fg then [Syscall.waitpid (env.fork i) false, Syscall.tcsetpgrp env.shell_pgid]
                else [Syscall.tcsetpgrp env.shell_pgid, Syscall.waitpid (env.fork i) true]))
          ps with
      | none => none
      | some (ps1, pgid2, tr3) =>
        some (record_status { p with pid := env.fork i } ((env.wait i).getD status) :: ps1,
              pgid2, tr3)

/-- Spawning a job with job control: the job and the trace when the shell comes
back from the loop. -/
def spawn_job (env : SpawnEnv) (j : job_t) (fg : Bool) : Option (job_t × List Syscall) :=
  match spawn_job.go env fg 0 j.pgid env.status0 [] j.first_process with
  | none => none
  | some (ps, pgid, tr) => some ({ j with first_process := ps, pgid := pgid }, tr)

/-- The `setpgid` calls of a trace, as pairs (pid, pgid). -/
def setpgidCalls : List Syscall → List (Int × Int)
  | [] => []
  | Syscall.setpgid pid pgid :: tr => (pid, pgid) :: setpgidCalls tr
  | _ :: tr => setpgidCalls tr

/-! ## The parser -/

/-- The body of `init_job` (the job starts with no process). -/
def init_job : job_t :=
  { first_process := [], pgid := -1, notified := false,
    mystdin := STDIN_FILENO, mystdout := STDOUT_FILENO, mystderr := STDERR_FILENO,
    bg := false, ifile := none, ofile := none, freed := false }

/-- The body of `init_process`: `argv` is `calloc(MAX_ARGS, sizeof(char *))`. -/
def init_process : process_t :=
  { pid := -1, completed := false, stopped := false, status := -1, argc := 0,
    argv := List.replicate MAX_ARGS none }

/-- The store `argv[i] = v` into the allocated array. -/
def store (argv : List (Option (List Char))) (i : Nat) (v : Option (List Char)) :
    Option (List (Option (List Char))) :=
  if i < argv.length then some (argv.set i v) else none

/-- The `while(cmd[cmd_pos] != 0)` loop of `readprocessinfo`; `cmd` is the text
from `cmd_pos` on. -/
def readprocessinfo.loop : Nat → process_t → Nat → List Char → Except Fault process_t
  | 0, _, _, _ => .error .out_of_fuel
  | fuel + 1, p, argc, cmd =>
    match cmd with
    | [] =>
      match store p.argv argc none with
      | none => .error .out_of_bounds
      | some a => .ok { p with argv := a, argc := argc }
    | c :: cs =>
      match store p.argv argc (some ((c :: cs).takeWhile (fun x => !isspace x))) with
      | none => .error .out_of_bounds
      | some a =>
        readprocessinfo.loop fuel { p with argv := a } (argc + 1)
          (((c :: cs).dropWhile (fun x => !isspace x)).dropWhile isspace)

/-- Splits the command text into the argument vector of `p`. -/
def readprocessinfo (p : process_t) (cmd : List Char) : Except Fault process_t :=
  match cmd.dropWhile isspace with
  | [] => .ok p
  | c :: cs => readprocessinfo.loop ((c :: cs).length + 1) p 0 (c :: cs)

/-- Marks the job as freed; `free_job` always returns true. -/
def free_job (j : job_t) : job_t × Bool := ({ j with freed := true }, true)

/-- Prints `msg` and returns `free_job(j)`. -/
def invokefree (j : job_t) : job_t × Bool := free_job j

/-- The loop that copies a redirection file name: `none` when the check
`MAX_LEN_FILENAME == iofile_seek` fires, else the name and the text left. -/
def readiofile : Nat → List Char → Option (List Char × List Char)
  | _, [] => some ([], [])
  | seek, c :: cs =>
    if isspace c then some ([], c :: cs)
    else if MAX_LEN_FILENAME = seek then none
    else
      match readiofile (seek + 1) cs with
      | none => none
      | some (name, rest) => some (c :: name, rest)

/-- The loop after a file name: skips spaces but stops at the newline. -/
def skipblank : List Char → List Char
  | [] => []
  | c :: cs => if isspace c then (if c = '\n' then c :: cs else skipblank cs) else c :: cs

/-- How the inner `while` of `readcmdline` ends: by `return invokefree(...)`,
or by leaving the loop with the job, `cmd`, the text from `cmdline_pos` on, and
`sequence`. -/
inductive Inner where
  | failed (j : job_t)
  | done (j : job_t) (cmd : List Char) (rest : List Char) (sequence : Bool)
deriving DecidableEq, Repr

/-- The inner `while` of `readcmdline`, which builds `current_job`. -/
def readcmdline.inner : Nat → job_t → List Char → Bool → List Char → Except Fault Inner
  | 0, _, _, _, _ => .error .out_of_fuel
  | fuel + 1, j, cmd, valid_input, rest =>
    match rest with
    | [] => .ok (.done j cmd [] false)
    | c :: cs =>
      if c = '\n' then .ok (.done j cmd (c :: cs) false)
      else if c = '<' then
        match readiofile 0 (cs.dropWhile isspace) with
        | none => .ok (.failed { j with ifile := some ((cs.dropWhile isspace).take MAX_LEN_FILENAME) })
        | some (name, rest1) =>
          if MAX_LEN_FILENAME ≤ name.length then .error .out_of_bounds
          else readcmdline.inner fuel { j with ifile := some name, mystdin := INPUT_FD }
                 cmd false (skipblank rest1)
      else if c = '>' then
        match readiofile 0 (cs.dropWhile isspace) with
        | none => .ok (.failed { j with ofile := some ((cs.dropWhile isspace).take MAX_LEN_FILENAME) })
        | some (name, rest1) =>
          if MAX_LEN_FILENAME ≤ name.length then .error .out_of_bounds
          else readcmdline.inner fuel { j with ofile := some name, mystdout := OUTPUT_FD }
                 cmd false (skipblank rest1)
      else if c = '|' then
        match readprocessinfo init_process cmd with
        | .error e => .error e
        | .ok p =>
          readcmdline.inner fuel { j with first_process := j.first_process ++ [p] } [] true cs
      else if c = '&' then .ok (.done { j with bg := true } cmd (c :: cs) false)
      else if c = ';' then .ok (.done j cmd (c :: cs) true)
      else if c = '#' then .ok (.done j cmd (c :: cs) false)
      else if !valid_input then .ok (.failed j)
      else if cmd.length = MAX_LEN_CMDLINE - 1 then .ok (.failed j)
      else readcmdline.inner fuel j (cmd ++ [c]) valid_input cs

/-- Find the last job: walks the Registry through every `next`. -/
def find_last_job : List job_t → Except Fault (Option job_t)
  | [] => .ok none
  | j :: js =>
    if j.freed then .error .use_after_free
    else
      match js with
      | [] => .ok (some j)
      | k :: ks => find_last_job (k :: ks)

/-- What `readcmdline` leaves: its return value and the Registry. -/
structure ParseResult where
  ret : Bool
  first_job : List job_t
deriving DecidableEq, Repr

/-- The outer `while(1)` of `readcmdline`; `cmdline` is the text from
`cmdline_pos` on and `eof` is `feof(stdin)`. -/
def readcmdline.loop : Nat → List job_t → List Char → Bool → Except Fault ParseResult
  | 0, _, _, _ => .error .out_of_fuel
  | fuel + 1, first_job, cmdline, eof =>
    match find_last_job first_job with
    | .error e => .error e
    | .ok _ =>
      match cmdline.dropWhile isspace with
      | [] => .ok ⟨false, first_job⟩
      | c :: cs =>
        if c = '\n' || eof then .ok ⟨false, first_job⟩
        else if c = ';' || c = '&' || c = '<' || c = '>' || c = '|' then .ok ⟨false, first_job⟩
        else
          match readcmdline.inner ((c :: cs).length + 1) init_job [] true (c :: cs) with
          | .error e => .error e
          | .ok (.failed j) => .ok ⟨(invokefree j).2, first_job ++ [(invokefree j).1]⟩
          | .ok (.done j cmd rest sequence) =>
            match readprocessinfo init_process cmd with
            | .error e => .error e
            | .ok p =>
              if !sequence then
                .ok ⟨true, first_job ++ [{ j with first_process := j.first_process ++ [p] }]⟩
              else
                readcmdline.loop fuel
                  (first_job ++ [{ j with first_process := j.first_process ++ [p] }])
                  rest.tail eof

/-- The libc `fgets(buf, n, stdin)` followed by `feof(stdin)`: the bytes stored,
whether end-of-file was hit, and what is left of the stream.  It reads at most
`k = n - 1` bytes and stops after a newline. -/
def fgets : Nat → List Char → List Char × Bool × List Char
  | 0, s => ([], false, s)
  | _ + 1, [] => ([], true, [])
  | k + 1, c :: cs =>
    if c = '\n' then ([c], false, cs)
    else ((c :: (fgets k cs).1), (fgets k cs).2.1, (fgets k cs).2.2)

/-- The C string held by a buffer: the bytes before the first NUL. -/
def cstr (buf : List Char) : List Char := buf.takeWhile (fun c => c != '\x00')

/-- Reads one line of `stdin` and appends its jobs to the Registry.  The prompt
`msg` is only printed. -/
def readcmdline (first_job : List job_t) (stdin : List Char) : Except Fault ParseResult :=
  readcmdline.loop ((fgets (MAX_LEN_CMDLINE - 1) stdin).1.length + 1) first_job
    (cstr (fgets (MAX_LEN_CMDLINE - 1) stdin).1) (fgets (MAX_LEN_CMDLINE - 1) stdin).2.1

/-! ## The grammar of a line, as the specification words it -/

/-- Whitespace inside a line: `isspace` other than the newline. -/
def blank (c : Char) : Bool :=
  c = ' ' || c = '\t' || c = '\x0b' || c = '\x0c' || c = '\r'

/-- The symbols of the parser. -/
def special (c : Char) : Bool :=
  c = '<' || c = '>' || c = '|' || c = '&' || c = ';' || c = '#'

/-- A character of a plain word: no whitespace, no symbol, not NUL. -/
def plain (c : Char) : Bool := !isspace c && !special c && c != '\x00'

/-- A plain word: a non-empty run of plain characters. -/
def isWord (w : List Char) : Bool := !w.isEmpty && w.all plain

/-- A command as typed: blanks, a first word, further words each after a
non-empty run of blanks, and trailing blanks. -/
structure Command where
  lead : List Char
  word : List Char
  more : List (List Char × List Char)
  trail : List Char
deriving DecidableEq, Repr

/-- The text of the words after the first, each with the blanks before it. -/
def sepWords : List (List Char × List Char) → List Char
  | [] => []
  | sw :: r => sw.1 ++ (sw.2 ++ sepWords r)

/-- The text of a command. -/
def Command.text (c : Command) : List Char :=
  c.lead ++ (c.word ++ (sepWords c.more ++ c.trail))

/-- The words of a command, in order. -/
def Command.words (c : Command) : List (List Char) := c.word :: c.more.map Prod.snd

/-- The command is a non-empty sequence of plain words separated by blanks. -/
def Command.wf (c : Command) : Bool :=
  c.lead.all blank && isWord c.word
    && c.more.all (fun sw => !sw.1.isEmpty && sw.1.all blank && isWord sw.2)
    && c.trail.all blank

/-- The Process that holds the words `ws` as its argument vector: `argc` is
their number, `argv` holds them in order and is NULL from `argv[argc]` on. -/
def processOf (ws : List (List Char)) : process_t :=
  { init_process with
    argc := ws.length,
    argv := ws.map some ++ List.replicate (MAX_ARGS - ws.length) none }

/-- Commands separated by `|`. -/
def pipeText : Command → List Command → List Char
  | c, [] => c.text
  | c, d :: ds => c.text ++ '|' :: pipeText d ds

/-- Commands separated by `;`. -/
def seqText : Command → List Command → List Char
  | c, [] => c.text
  | c, d :: ds => c.text ++ ';' :: seqText d ds

/-- The Job of one command with no redirection, in the foreground. -/
def jobOf (c : Command) : job_t := { init_job with first_process := [processOf c.words] }

/-- The text of a command with an output redirection `> file`. -/
def outputText (c : Command) (sp1 file sp2 : List Char) : List Char :=
  c.text ++ '>' :: (sp1 ++ (file ++ sp2))

/-- The text of a command followed by `&` and trailing text. -/
def backgroundText (c : Command) (trailing : List Char) : List Char :=
  c.text ++ '&' :: trailing

/-- The text is empty or starts with a character that satisfies `P`. -/
def StartsWith (P : Char → Prop) (r : List Char) : Prop := ∀ c cs, r = c :: cs → P c

/-- A job whose only process has completed. -/
def completedJob : job_t :=
  { init_job with first_process := [{ init_process with completed := true, status := 0 }] }

/-- A job with one stopped process. -/
def stoppedJob : job_t :=
  { init_job with
    pgid := 100,
    first_process := [{ init_process with pid := 100, stopped := true, status := 4991 }] }

/-! ## The Registry and the main loop -/

/-- The size of the array `jobs` declared in `dsh.c`. -/
def max_num_jobs : Nat := 20

/-- Find the job with the indicated pgid. -/
def find_job : List job_t → Int → Except Fault (Option job_t)
  | [], _ => .ok none
  | j :: js, pgid =>
    if j.freed then .error .use_after_free
    else if j.pgid = pgid then .ok (some j)
    else find_job js pgid

/-- The `for` loop of `delete_job`: `i` is the position of `job` in the
Registry and `k` the position of the loop variable `j`; `j->next == job` holds
when `j` has a successor and `k + 1 = i`. -/
def delete_job.loop (i : Nat) : Nat → List job_t → Except Fault (List job_t)
  | _, [] => .ok []
  | k, j :: js =>
    if j.freed then .error .use_after_free
    else
      match js with
      | [] => .ok [j]
      | n :: ns =>
        if k + 1 = i then .ok (j :: ns)
        else
          match delete_job.loop i (k + 1) (n :: ns) with
          | .error e => .error e
          | .ok r => .ok (j :: r)

/-- The body of `delete_job` on the job at position `i`: the loop, then
`free_job(job)`, which reaches the Registry only when the job is still linked
as `first_job`; the return value is 1. -/
def delete_job (first_job : List job_t) (i : Nat) : Except Fault (List job_t × Int) :=
  match delete_job.loop i 0 first_job with
  | .error e => .error e
  | .ok js => .ok (if i = 0 then js.modifyHead (fun j => (free_job j).1) else js, 1)

/-- The built-in commands that `main` looks for. -/
inductive BuiltIn where
  | jobs
  | fg
  | bg
  | cd
deriving DecidableEq, Repr

/-- The chain of `strcmp(p->argv[0], ...) == 0` tests of `main`. -/
def which_built_in (argv0 : List Char) : Option BuiltIn :=
  if argv0 = "jobs".toList then some .jobs
  else if argv0 = "fg".toList then some .fg
  else if argv0 = "bg".toList then some .bg
  else if argv0 = "cd".toList then some .cd
  else none

/-- The `for` loop of `main` over the processes of a job: the built-in at which
it breaks, or `none` when it runs to the end. -/
def scan_built_in : List process_t → Except Fault (Option BuiltIn)
  | [] => .ok none
  | p :: ps =>
    match p.argv.head? with
    | some (some a) =>
      match which_built_in a with
      | some b => .ok (some b)
      | none => scan_built_in ps
    | _ => .error .null_pointer

/-- What one pass of `main` over the Registry leaves: the Registry, the position
of `jobs_job`, the calls of `spawn_job` (position of the job, and `fg`), and the
system calls of the shell. -/
structure PassResult where
  first_job : List job_t
  jobs_job : Option Nat
  spawned : List (Nat × Bool)
  trace : List Syscall
deriving DecidableEq, Repr

/-- The `for(j = first_job; j; j = j->next)` loop of `main`.  The state is the
position of `j`, `isBuiltIn` and `jobs_job`; `env k` answers the system calls
made for the job at position `k`.  The text printed by `jobs` is not modelled.
`none` means that a `spawn_job` did not come back. -/
def dispatch.go (env : Nat → SpawnEnv) :
    Nat → Bool → Option Nat → List job_t → Except Fault (Option PassResult)
  | _, _, jobs_job, [] => .ok (some ⟨[], jobs_job, [], []⟩)
  | k, isBuiltIn, jobs_job, j :: js =>
    if j.freed then .error .use_after_free
    else if j.pgid < 0 then
      match scan_built_in j.first_process with
      | .error e => .error e
      | .ok b =>
        if b = some .jobs ∧ js.any (fun x => x.freed) = true then .error .use_after_free
        else if isBuiltIn || b.isSome then
          match dispatch.go env (k + 1) true (if b = some .jobs then some k else jobs_job) js with
          | .error e => .error e
          | .ok none => .ok none
          | .ok (some r) =>
            .ok (some { r with
              first_job := (if b = some .bg then { j with bg := true } else j) :: r.first_job,
              trace := (if b = some .fg then
                          [Syscall.tcsetpgrp j.pgid, Syscall.tcsetpgrp (env k).shell_pgid]
                        else []) ++ r.trace })
        else
          match spawn_job (env k) j (!j.bg) with
          | none => .ok none
          | some (j1, tr) =>
            match dispatch.go env (k + 1) false jobs_job js with
            | .error e => .error e
            | .ok none => .ok none
            | .ok (some r) =>
              .ok (some { r with
                first_job := j1 :: r.first_job,
                spawned := (k, !j.bg) :: r.spawned,
                trace := tr ++ r.trace })
    else
      match dispatch.go env (k + 1) isBuiltIn jobs_job js with
      | .error e => .error e
      | .ok none => .ok none
      | .ok (some r) => .ok (some { r with first_job := j :: r.first_job })

/-- One pass of `main` over the Registry, after `readcmdline` returned true. -/
def dispatch (env : Nat → SpawnEnv) (first_job : List job_t) : Except Fault (Option PassResult) :=
  dispatch.go env 0 false none first_job

/-- The state of the shell between two turns of the `while(1)` of `main`: the
Registry, the input not yet read, and (ghost) the jobs handed to `delete_job`
so far, each as it was at that moment. -/
structure ShellState where
  first_job : List job_t
  stdin : List Char
  removed : List job_t
deriving DecidableEq, Repr

/-- One turn of the `while(1)` of `main`.  `none` means that the shell has left
the loop: `exit` at end-of-file, or a `spawn_job` that did not come back. -/
def main_pass (env : Nat → SpawnEnv) (s : ShellState) : Except Fault (Option ShellState) :=
  match readcmdline s.first_job s.stdin with
  | .error e => .error e
  | .ok r =>
    if !r.ret then
      if (fgets (MAX_LEN_CMDLINE - 1) s.stdin).2.1 then .ok none
      else .ok (some ⟨r.first_job, (fgets (MAX_LEN_CMDLINE - 1) s.stdin).2.2, s.removed⟩)
    else
      match dispatch env r.first_job with
      | .error e => .error e
      | .ok none => .ok none
      | .ok (some d) =>
        match d.jobs_job with
        | none => .ok (some ⟨d.first_job, (fgets (MAX_LEN_CMDLINE - 1) s.stdin).2.2, s.removed⟩)
        | some i =>
          match delete_job d.first_job i with
          | .error e => .error e
          | .ok r1 =>
            .ok (some ⟨r1.1, (fgets (MAX_LEN_CMDLINE - 1) s.stdin).2.2,
                       s.removed ++ (d.first_job[i]?).toList⟩)

/-- The first `n` turns of the `while(1)` of `main`; `env t` answers the system
calls of turn `t`.  The state is returned as it is when the shell leaves the
loop before that. -/
def main_loop (env : Nat → Nat → SpawnEnv) : Nat → Nat → ShellState → Except Fault ShellState
  | 0, _, s => .ok s
  | n + 1, t, s =>
    match main_pass (env t) s with
    | .error e => .error e
    | .ok none => .ok s
    | .ok (some s1) => main_loop env n (t + 1) s1

/-- No process of the job has been created: every `pid` is still the -1 of
`init_process`. -/
def Unspawned (j : job_t) : Prop := ∀ p ∈ j.first_process, p.pid = -1

instance instDecidableUnspawned (j : job_t) : Decidable (Unspawned j) :=
  inferInstanceAs (Decidable (∀ p ∈ j.first_process, p.pid = -1))

/-! ## Sample inputs -/

/-- A command of one word and nothing else. -/
def oneWord (w : List Char) : Command := { lead := [], word := w, more := [], trail := [] }

/-- Twenty-one one-letter words separated by single spaces. -/
def manyWords : Command :=
  { lead := [], word := ['a'], more := List.replicate 20 ([' '], ['a']), trail := [] }

/-- A word as long as the line buffer can hold. -/
def longWord : List Char := List.replicate (MAX_LEN_CMDLINE - 1) 'a'

/-- The command `longWord` followed by one space. -/
def longCommand : Command := { oneWord longWord with trail := [' '] }

/-- The first command of the line `false ; true`, with the blank after it. -/
def cmdFalse : Command := { oneWord "false".toList with trail := [' '] }

/-- The second command of the line `false ; true`, with the blank before it. -/
def cmdTrue : Command := { oneWord "true".toList with lead := [' '] }

/-- The command of the line `ls > out.txt`. -/
def cmdLs : Command := { oneWord "ls".toList with trail := [' '] }

/-- The command of the line `sleep 5 &`. -/
def cmdSleep : Command :=
  { lead := [], word := "sleep".toList, more := [([' '], ['5'])], trail := [' '] }

/-- An operating system whose forks give the pids 100, 101, ... and whose
children all exit with status 0. -/
def sampleEnv : SpawnEnv :=
  { fork := fun i => 100 + i, wait := fun _ => some 0, status0 := 0, shell_pgid := 50 }

/-- A freshly parsed job of two processes. -/
def sampleJob : job_t := { init_job with first_process := [init_process, init_process] }

/-! ## Further sample inputs and invariants -/

/-- The text holds no command: it is at its end, or it starts with a newline
or with one of the symbols that cannot start a command. -/
def noCommand : List Char → Bool
  | [] => true
  | c :: _ => c = '\n' || c = '<' || c = '>' || c = '|' || c = ';' || c = '&'

/-- The line `ls > out extra`. -/
def lineExtraWord : List Char := "ls > out extra\n".toList

/-- The Job being built when `readcmdline` meets `extra` on the line
`ls > out extra`: the output file is set and no Process is linked yet. -/
def partialJob : job_t :=
  { init_job with ofile := some "out".toList, mystdout := OUTPUT_FD }

/-- A command followed by a redirection symbol and only whitespace. -/
def danglingText (c : Command) (sym : Char) (ws : List Char) : List Char :=
  c.text ++ sym :: ws

/-- The command of the line `cat <`. -/
def cmdCat : Command := { oneWord "cat".toList with trail := [' '] }

/-- A Registry that holds `max_num_jobs` Jobs. -/
def fullRegistry : List job_t := List.replicate max_num_jobs (jobOf cmdLs)

/-- An operating system in which the second child is stopped by `SIGTSTP`
(status `0x137f`) and the first one exits with status 0. -/
def stopEnv : SpawnEnv :=
  { fork := fun i => 100 + i, wait := fun i => if i = 1 then some 4991 else some 0,
    status0 := 0, shell_pgid := 50 }

/-- An operating system in which no child has changed state when the shell
asks: every `waitpid` stores nothing. -/
def quietEnv : SpawnEnv :=
  { fork := fun i => 100 + i, wait := fun _ => none, status0 := 0, shell_pgid := 50 }

/-- A freshly parsed job of one process. -/
def singleJob : job_t := { init_job with bg := true, first_process := [init_process] }

/-- The job that the inner loop of the parser hands back. -/
def Inner.job : Inner → job_t
  | .failed j => j
  | .done j _ _ _ => j

/-- Every job of the Registry that has no process group has no process
created. -/
def RegInv (R : List job_t) : Prop := ∀ j ∈ R, j.pgid < 0 → Unspawned j

/-- The answers of the operating system in every turn of the sample run. -/
def sampleEnvs : Nat → Nat → SpawnEnv := fun _ _ => sampleEnv

/-- The shell after the two lines `ls` and `jobs`: the Job of `ls` has run in
the foreground, and the Job of `jobs` has been handed to `delete_job`. -/
def sampleFinal : ShellState :=
  { first_job := [{ jobOf (oneWord "ls".toList) with
      pgid := 100,
      first_process := [{ processOf ["ls".toList] with pid := 100, status := 0, completed := true }] }],
    stdin := [],
    removed := [jobOf (oneWord "jobs".toList)] }

/-- The Job that the line `ls |` gives: the Process of `ls`, then a Process
with no argument at all. -/
def emptyStageJob : job_t :=
  { init_job with first_process := [processOf ["ls".toList], init_process] }

/-- The Registry that the line `cd ; ls` gives. -/
def cdThenLs : List job_t := [jobOf (oneWord "cd".toList), jobOf (oneWord "ls".toList)]

/-- The calls of `spawn_job` that a pass owes to a Registry in which no Job
names a built-in: one for each Job with `pgid < 0`, at its position, in the
foreground when `bg` is false. -/
def expectedSpawns : Nat → List job_t → List (Nat × Bool)
  | _, [] => []
  | k, j :: js =>
    if j.pgid < 0 then (k, !j.bg) :: expectedSpawns (k + 1) js
    else expectedSpawns (k + 1) js

/-! ## Lemmas on text and on the loops of the parser -/

theorem blank_isspace {c : Char} (h : blank c = true) : isspace c = true := by
  simp only [blank, Bool.or_eq_true, decide_eq_true_eq] at h
  simp only [isspace, Bool.or_eq_true, decide_eq_true_eq]
  tauto

theorem plain_facts {c : Char} (h : plain c = true) :
    isspace c = false ∧ c ≠ '\n' ∧ c ≠ '<' ∧ c ≠ '>' ∧ c ≠ '|' ∧ c ≠ '&' ∧ c ≠ ';' ∧ c ≠ '#' := by
  simp only [plain, special, isspace, Bool.and_eq_true, Bool.not_eq_true', Bool.or_eq_false_iff,
    decide_eq_false_iff_not, bne_iff_ne, ne_eq] at h
  simp only [isspace, Bool.or_eq_false_iff, decide_eq_false_iff_not]
  tauto

theorem takeWhile_run (f : Char → Bool) (w r : List Char) (hw : ∀ x ∈ w, f x = true)
    (hr : StartsWith (fun c => f c = false) r) : (w ++ r).takeWhile f = w := by
  induction w with
  | nil =>
    cases r with
    | nil => rfl
    | cons c cs => simp [List.takeWhile, hr c cs rfl]
  | cons a w ih =>
    have ha : f a = true := hw a (List.mem_cons_self _ _)
    rw [List.cons_append, List.takeWhile_cons, ha]
    simp only [if_true]
    rw [ih (fun x hx => hw x (List.mem_cons_of_mem _ hx))]

theorem dropWhile_run (f : Char → Bool) (w r : List Char) (hw : ∀ x ∈ w, f x = true)
    (hr : StartsWith (fun c => f c = false) r) : (w ++ r).dropWhile f = r := by
  induction w with
  | nil =>
    cases r with
    | nil => rfl
    | cons c cs => simp [List.dropWhile, hr c cs rfl]
  | cons a w ih =>
    have ha : f a = true := hw a (List.mem_cons_self _ _)
    rw [List.cons_append, List.dropWhile_cons, ha]
    simp only [if_true]
    exact ih (fun x hx => hw x (List.mem_cons_of_mem _ hx))

theorem store_next (ws : List (List Char)) (k : Nat) (v : Option (List Char)) :
    store (ws.map some ++ List.replicate (k + 1) none) ws.length v
      = some (ws.map some ++ v :: List.replicate k none) := by
  unfold store
  have hlen : ws.length < (ws.map some ++ List.replicate (k + 1) (none : Option (List Char))).length := by
    simp
  rw [if_pos hlen]
  congr 1
  induction ws with
  | nil => simp [List.replicate_succ]
  | cons a ws ih => simpa using ih (by simp)

theorem isWord_iff (w : List Char) : isWord w = true ↔ w ≠ [] ∧ ∀ x ∈ w, plain x = true := by
  cases w <;> simp [isWord]

theorem wf_iff (c : Command) :
    c.wf = true ↔ (∀ x ∈ c.lead, blank x = true) ∧ isWord c.word = true
      ∧ (∀ sw ∈ c.more, sw.1 ≠ [] ∧ (∀ x ∈ sw.1, blank x = true) ∧ isWord sw.2 = true)
      ∧ (∀ x ∈ c.trail, blank x = true) := by
  simp only [Command.wf, Bool.and_eq_true, List.all_eq_true, Bool.not_eq_true',
    List.isEmpty_eq_false, and_assoc]

theorem startsWith_nil (P : Char → Prop) : StartsWith P [] := by
  intro c cs h; cases h

theorem startsWith_append (P : Char → Prop) (s r : List Char) (hs : s ≠ [])
    (h : ∀ x ∈ s, P x) : StartsWith P (s ++ r) := by
  intro c cs e
  cases s with
  | nil => exact absurd rfl hs
  | cons a s =>
    simp only [List.cons_append, List.cons.injEq] at e
    rw [← e.1]; exact h a (List.mem_cons_self _ _)

/-- The text after a word: empty, or starting with a space. -/
theorem startsWith_after (more : List (List Char × List Char)) (trail : List Char)
    (hmore : ∀ sw ∈ more, sw.1 ≠ [] ∧ (∀ x ∈ sw.1, blank x = true) ∧ isWord sw.2 = true)
    (htrail : ∀ x ∈ trail, blank x = true) :
    StartsWith (fun c => isspace c = true) (sepWords more ++ trail) := by
  cases more with
  | nil =>
    intro c cs e
    simp only [sepWords, List.nil_append] at e
    exact blank_isspace (htrail c (by rw [e]; exact List.mem_cons_self _ _))
  | cons sw m =>
    have h := hmore sw (List.mem_cons_self _ _)
    simp only [sepWords, List.append_assoc]
    exact startsWith_append _ _ _ h.1 (fun x hx => blank_isspace (h.2.1 x hx))

theorem not_isspace_of_plain {w : List Char} (hw : ∀ x ∈ w, plain x = true) :
    ∀ x ∈ w, (fun c => !isspace c) x = true := by
  intro x hx
  simp [(plain_facts (hw x hx)).1]

theorem startsWith_flip {r : List Char} (h : StartsWith (fun c => isspace c = true) r) :
    StartsWith (fun c => (fun x => !isspace x) c = false) r := by
  intro c cs e
  simp [h c cs e]

theorem startsWith_word (w r : List Char) (hw : isWord w = true) :
    StartsWith (fun c => isspace c = false) (w ++ r) := by
  rw [isWord_iff] at hw
  exact startsWith_append _ _ _ hw.1 (fun x hx => (plain_facts (hw.2 x hx)).1)

theorem readprocessinfo_loop_words (more : List (List Char × List Char)) :
    ∀ (fuel : Nat) (ws : List (List Char)) (w trail : List Char),
      isWord w = true →
      (∀ sw ∈ more, sw.1 ≠ [] ∧ (∀ x ∈ sw.1, blank x = true) ∧ isWord sw.2 = true) →
      (∀ x ∈ trail, blank x = true) →
      ws.length + 1 + more.length < MAX_ARGS →
      (w ++ (sepWords more ++ trail)).length < fuel →
      readprocessinfo.loop fuel
          { init_process with argv := ws.map some ++ List.replicate (MAX_ARGS - ws.length) none }
          ws.length (w ++ (sepWords more ++ trail))
        = .ok (processOf (ws ++ w :: more.map Prod.snd)) := by
  induction more with
  | nil =>
    intro fuel ws w trail hw _ htrail hn hfuel
    obtain ⟨c, w1, rfl⟩ : ∃ c w1, w = c :: w1 := by
      cases w with
      | nil => simp [isWord] at hw
      | cons c w1 => exact ⟨c, w1, rfl⟩
    have hw2 := (isWord_iff _).1 hw
    simp only [sepWords, List.nil_append] at hfuel ⊢
    obtain ⟨f1, rfl⟩ : ∃ f1, fuel = f1 + 1 := ⟨fuel - 1, by omega⟩
    obtain ⟨f2, rfl⟩ : ∃ f2, f1 = f2 + 1 := ⟨f1 - 1, by simp at hfuel; omega⟩
    have hk : MAX_ARGS - ws.length = (MAX_ARGS - ws.length - 2) + 1 + 1 := by
      simp at hn; omega
    have htrail_sp : StartsWith (fun c => isspace c = true) trail := by
      intro c cs e
      exact blank_isspace (htrail c (by rw [e]; exact List.mem_cons_self _ _))
    have htw : List.takeWhile (fun x => !isspace x) (c :: (w1 ++ trail)) = c :: w1 :=
      takeWhile_run _ (c :: w1) trail (not_isspace_of_plain hw2.2) (startsWith_flip htrail_sp)
    have hdw : List.dropWhile (fun x => !isspace x) (c :: (w1 ++ trail)) = trail :=
      dropWhile_run _ (c :: w1) trail (not_isspace_of_plain hw2.2) (startsWith_flip htrail_sp)
    have hdt : List.dropWhile isspace trail = [] := by
      have := dropWhile_run isspace trail [] (fun x hx => blank_isspace (htrail x hx))
        (startsWith_nil _)
      simpa using this
    rw [List.cons_append, readprocessinfo.loop]
    simp only [htw, hdw, hdt]
    rw [hk, store_next]
    simp only []
    rw [readprocessinfo.loop]
    have e1 : List.map some ws ++ some (c :: w1) :: List.replicate (MAX_ARGS - ws.length - 2 + 1) none
        = List.map some (ws ++ [c :: w1]) ++ List.replicate (MAX_ARGS - ws.length - 2 + 1) none := by
      simp
    have e2 : ws.length + 1 = (ws ++ [c :: w1]).length := by simp
    simp only [e1, e2, store_next]
    simp only [processOf, init_process, List.map_nil, List.length_append, List.length_cons,
      List.length_nil]
    congr 1
    have : MAX_ARGS - (ws.length + (0 + 1)) = (MAX_ARGS - ws.length - 2) + 1 := by
      simp at hn; omega
    rw [this]
    simp [List.replicate_succ]
  | cons sw m ih =>
    intro fuel ws w trail hw hmore htrail hn hfuel
    obtain ⟨c, w1, rfl⟩ : ∃ c w1, w = c :: w1 := by
      cases w with
      | nil => simp [isWord] at hw
      | cons c w1 => exact ⟨c, w1, rfl⟩
    have hw2 := (isWord_iff _).1 hw
    have hsw := hmore sw (List.mem_cons_self _ _)
    have hm : ∀ x ∈ m, x.1 ≠ [] ∧ (∀ y ∈ x.1, blank y = true) ∧ isWord x.2 = true :=
      fun x hx => hmore x (List.mem_cons_of_mem _ hx)
    obtain ⟨f1, rfl⟩ : ∃ f1, fuel = f1 + 1 := ⟨fuel - 1, by omega⟩
    have hk : MAX_ARGS - ws.length = (MAX_ARGS - ws.length - 1) + 1 := by
      simp at hn; omega
    have hrest := startsWith_after (sw :: m) trail hmore htrail
    have htw : List.takeWhile (fun x => !isspace x) (c :: (w1 ++ (sepWords (sw :: m) ++ trail)))
        = c :: w1 :=
      takeWhile_run _ (c :: w1) _ (not_isspace_of_plain hw2.2) (startsWith_flip hrest)
    have hdw : List.dropWhile (fun x => !isspace x) (c :: (w1 ++ (sepWords (sw :: m) ++ trail)))
        = sepWords (sw :: m) ++ trail :=
      dropWhile_run _ (c :: w1) _ (not_isspace_of_plain hw2.2) (startsWith_flip hrest)
    have hds : List.dropWhile isspace (sepWords (sw :: m) ++ trail)
        = sw.2 ++ (sepWords m ++ trail) := by
      simp only [sepWords, List.append_assoc]
      exact dropWhile_run isspace sw.1 _ (fun x hx => blank_isspace (hsw.2.1 x hx))
        (startsWith_word _ _ hsw.2.2)
    rw [List.cons_append, readprocessinfo.loop]
    simp only [htw, hdw, hds]
    rw [hk, store_next]
    simp only []
    have e1 : List.map some ws ++ some (c :: w1) :: List.replicate (MAX_ARGS - ws.length - 1) none
        = List.map some (ws ++ [c :: w1])
            ++ List.replicate (MAX_ARGS - (ws ++ [c :: w1]).length) none := by
      simp [Nat.sub_sub]
    have e2 : ws.length + 1 = (ws ++ [c :: w1]).length := by simp
    rw [e1, e2]
    have := ih f1 (ws ++ [c :: w1]) sw.2 trail hsw.2.2 hm htrail
      (by simp at hn ⊢; omega)
      (by
        simp only [sepWords, List.length_append, List.length_cons] at hfuel ⊢
        omega)
    simpa [init_process] using this

theorem readprocessinfo_command (c : Command) (hwf : c.wf = true)
    (hn : c.words.length < MAX_ARGS) :
    readprocessinfo init_process c.text = .ok (processOf c.words) := by
  obtain ⟨hl, hw, hm, ht⟩ := (wf_iff c).1 hwf
  have hd : List.dropWhile isspace c.text = c.word ++ (sepWords c.more ++ c.trail) :=
    dropWhile_run isspace c.lead _ (fun x hx => blank_isspace (hl x hx)) (startsWith_word _ _ hw)
  obtain ⟨a, w1, hw1⟩ : ∃ a w1, c.word = a :: w1 := by
    cases h : c.word with
    | nil => rw [h] at hw; simp [isWord] at hw
    | cons a w1 => exact ⟨a, w1, rfl⟩
  unfold readprocessinfo
  rw [hd]
  have key := readprocessinfo_loop_words c.more
    ((c.word ++ (sepWords c.more ++ c.trail)).length + 1) [] c.word c.trail hw hm ht
    (by simp only [Command.words, List.length_cons, List.length_map] at hn
        simp only [List.length_nil]; omega) (Nat.lt_succ_self _)
  rw [hw1] at key ⊢
  simpa [Command.words, hw1, init_process] using key

theorem mem_sepWords {x : Char} (more : List (List Char × List Char)) (h : x ∈ sepWords more) :
    ∃ sw ∈ more, x ∈ sw.1 ∨ x ∈ sw.2 := by
  induction more with
  | nil => simp [sepWords] at h
  | cons sw m ih =>
    simp only [sepWords, List.mem_append] at h
    rcases h with h | h | h
    · exact ⟨sw, List.mem_cons_self _ _, Or.inl h⟩
    · exact ⟨sw, List.mem_cons_self _ _, Or.inr h⟩
    · obtain ⟨sw1, h1, h2⟩ := ih h
      exact ⟨sw1, List.mem_cons_of_mem _ h1, h2⟩

/-- What the `default` branch of the parser needs of a character. -/
theorem ordinary_facts {c : Char} (h : blank c = true ∨ plain c = true) :
    c ≠ '\n' ∧ c ≠ '<' ∧ c ≠ '>' ∧ c ≠ '|' ∧ c ≠ '&' ∧ c ≠ ';' ∧ c ≠ '#' := by
  rcases h with h | h
  · simp only [blank, Bool.or_eq_true, decide_eq_true_eq] at h
    rcases h with (((h | h) | h) | h) | h <;> subst h <;> decide
  · exact (plain_facts h).2

theorem text_ordinary (c : Command) (hwf : c.wf = true) :
    ∀ x ∈ c.text, blank x = true ∨ plain x = true := by
  obtain ⟨hl, hw, hm, ht⟩ := (wf_iff c).1 hwf
  intro x hx
  simp only [Command.text, List.mem_append] at hx
  rcases hx with hx | hx | hx | hx
  · exact Or.inl (hl x hx)
  · exact Or.inr (((isWord_iff _).1 hw).2 x hx)
  · obtain ⟨sw, hsw, h⟩ := mem_sepWords _ hx
    rcases h with h | h
    · exact Or.inl ((hm sw hsw).2.1 x h)
    · exact Or.inr (((isWord_iff _).1 (hm sw hsw).2.2).2 x h)
  · exact Or.inl (ht x hx)

/-- The `default` branch copies a run of ordinary characters into `cmd`. -/
theorem inner_text (t : List Char) :
    ∀ (fuel : Nat) (j : job_t) (cmd rest : List Char),
      (∀ x ∈ t, blank x = true ∨ plain x = true) →
      cmd.length + t.length ≤ MAX_LEN_CMDLINE - 1 →
      readcmdline.inner (t.length + fuel) j cmd true (t ++ rest)
        = readcmdline.inner fuel j (cmd ++ t) true rest := by
  induction t with
  | nil => intro fuel j cmd rest _ _; simp
  | cons a t ih =>
    intro fuel j cmd rest ht hlen
    obtain ⟨h1, h2, h3, h4, h5, h6, h7⟩ := ordinary_facts (ht a (List.mem_cons_self _ _))
    have hf : (a :: t).length + fuel = (t.length + fuel) + 1 := by
      simp only [List.length_cons]; omega
    have hc : cmd.length ≠ MAX_LEN_CMDLINE - 1 := by
      simp only [List.length_cons] at hlen; omega
    rw [hf, List.cons_append, readcmdline.inner]
    simp only [h1, h2, h3, h4, h5, h6, h7, hc, if_false, Bool.not_true, Bool.false_eq_true]
    rw [ih fuel j (cmd ++ [a]) rest (fun x hx => ht x (List.mem_cons_of_mem _ hx))
      (by simp only [List.length_append, List.length_cons, List.length_nil] at hlen ⊢; omega)]
    simp

theorem ordinary_not_nul {c : Char} (h : blank c = true ∨ plain c = true) : c ≠ '\x00' := by
  rcases h with h | h
  · simp only [blank, Bool.or_eq_true, decide_eq_true_eq] at h
    rcases h with (((h | h) | h) | h) | h <;> subst h <;> decide
  · simp only [plain, Bool.and_eq_true, bne_iff_ne, ne_eq] at h
    exact h.2

/-- A line that fits the buffer is read whole, with or without its newline. -/
theorem fgets_line (line : List Char) :
    ∀ (k : Nat) (more : List Char), (∀ x ∈ line, x ≠ '\n') → line.length ≤ k →
      ∃ eol rest, (eol = [] ∨ eol = ['\n'])
        ∧ fgets k (line ++ '\n' :: more) = (line ++ eol, false, rest) := by
  induction line with
  | nil =>
    intro k more _ _
    cases k with
    | zero => exact ⟨[], _, Or.inl rfl, rfl⟩
    | succ k => exact ⟨['\n'], more, Or.inr rfl, by simp [fgets]⟩
  | cons a line ih =>
    intro k more hl hk
    cases k with
    | zero => simp at hk
    | succ k =>
      have ha : a ≠ '\n' := hl a (List.mem_cons_self _ _)
      obtain ⟨eol, rest, he, hf⟩ := ih k more (fun x hx => hl x (List.mem_cons_of_mem _ hx))
        (by simpa using hk)
      refine ⟨eol, rest, he, ?_⟩
      simp [fgets, ha, hf]

/-- The part of a line up to a given point is read as it is, when it fits. -/
theorem fgets_append (pre : List Char) :
    ∀ (k : Nat) (s : List Char), (∀ x ∈ pre, x ≠ '\n') → pre.length ≤ k →
      (fgets k (pre ++ s)).1 = pre ++ (fgets (k - pre.length) s).1
        ∧ ((fgets k (pre ++ s)).2.1 = (fgets (k - pre.length) s).2.1) := by
  induction pre with
  | nil => intro k s _ _; simp
  | cons a pre ih =>
    intro k s hl hk
    cases k with
    | zero => simp at hk
    | succ k =>
      have ha : a ≠ '\n' := hl a (List.mem_cons_self _ _)
      obtain ⟨h1, h2⟩ := ih k s (fun x hx => hl x (List.mem_cons_of_mem _ hx))
        (by simpa using hk)
      simp [fgets, ha, h1, h2]

/-- The stream is not at end-of-file when it still holds a newline. -/
theorem fgets_eof (s : List Char) :
    ∀ (k : Nat), '\n' ∈ s → (fgets k s).2.1 = false := by
  induction s with
  | nil => intro k h; simp at h
  | cons a s ih =>
    intro k h
    cases k with
    | zero => rfl
    | succ k =>
      by_cases ha : a = '\n'
      · simp [fgets, ha]
      · have hs : '\n' ∈ s := by
          rcases List.mem_cons.1 h with h | h
          · exact absurd h.symm ha
          · exact h
        simp [fgets, ha, ih k hs]

theorem cstr_append (pre s : List Char) (h : ∀ x ∈ pre, x ≠ '\x00') :
    cstr (pre ++ s) = pre ++ cstr s := by
  induction pre with
  | nil => rfl
  | cons a pre ih =>
    have ha : a ≠ '\x00' := h a (List.mem_cons_self _ _)
    simp only [cstr] at ih ⊢
    rw [List.cons_append, List.takeWhile_cons]
    simp only [bne_iff_ne, ne_eq, ha, not_false_eq_true, if_true]
    rw [ih (fun x hx => h x (List.mem_cons_of_mem _ hx))]
    rfl

theorem cstr_eol (eol : List Char) (h : eol = [] ∨ eol = ['\n']) : cstr eol = eol := by
  rcases h with h | h <;> subst h <;> decide

/-- The inner loop over commands separated by `|`: every command but the last
has become a Process, and the text of the last one is in `cmd`. -/
theorem inner_pipe (ds : List Command) :
    ∀ (c : Command) (fuel : Nat) (j : job_t) (tail : List Char),
      (∀ x ∈ c :: ds, x.wf = true ∧ x.words.length < MAX_ARGS) →
      (pipeText c ds).length ≤ MAX_LEN_CMDLINE - 1 →
      readcmdline.inner ((pipeText c ds).length + fuel) j [] true (pipeText c ds ++ tail)
        = readcmdline.inner fuel
            { j with first_process :=
                j.first_process ++ ((c :: ds).dropLast).map (fun x => processOf x.words) }
            ((c :: ds).getLast (List.cons_ne_nil _ _)).text true tail := by
  induction ds with
  | nil =>
    intro c fuel j tail hwf hlen
    have h := inner_text c.text fuel j [] tail (text_ordinary c (hwf c (List.mem_cons_self _ _)).1)
      (by simpa [pipeText] using hlen)
    simpa [pipeText] using h
  | cons d ds ih =>
    intro c fuel j tail hwf hlen
    have hc := hwf c (List.mem_cons_self _ _)
    have hlen2 : c.text.length + 1 + (pipeText d ds).length ≤ MAX_LEN_CMDLINE - 1 := by
      simp only [pipeText, List.length_append, List.length_cons] at hlen; omega
    have hf : (pipeText c (d :: ds)).length + fuel
        = c.text.length + (((pipeText d ds).length + fuel) + 1) := by
      simp only [pipeText, List.length_append, List.length_cons]; omega
    have ht : pipeText c (d :: ds) ++ tail = c.text ++ '|' :: (pipeText d ds ++ tail) := by
      simp [pipeText]
    rw [hf, ht, inner_text c.text _ j [] _ (text_ordinary c hc.1) (by simp; omega)]
    rw [readcmdline.inner]
    simp only [List.nil_append, readprocessinfo_command c hc.1 hc.2]
    have hne : ('|' : Char) ≠ '\n' ∧ ('|' : Char) ≠ '<' ∧ ('|' : Char) ≠ '>' := by decide
    simp only [hne.1, hne.2.1, hne.2.2, if_false, if_true]
    rw [ih d _ _ tail (fun x hx => hwf x (List.mem_cons_of_mem _ hx)) (by omega)]
    simp [List.dropLast, List.getLast]

theorem inner_end (fuel : Nat) (j : job_t) (cmd eol : List Char) (valid : Bool)
    (h : eol = [] ∨ eol = ['\n']) :
    readcmdline.inner (fuel + 1) j cmd valid eol = .ok (.done j cmd eol false) := by
  rcases h with h | h <;> subst h <;> simp [readcmdline.inner]

theorem inner_amp (fuel : Nat) (j : job_t) (cmd rest : List Char) (valid : Bool) :
    readcmdline.inner (fuel + 1) j cmd valid ('&' :: rest)
      = .ok (.done { j with bg := true } cmd ('&' :: rest) false) := by
  rw [readcmdline.inner]
  have hne : ('&' : Char) ≠ '\n' ∧ ('&' : Char) ≠ '<' ∧ ('&' : Char) ≠ '>' ∧ ('&' : Char) ≠ '|' := by
    decide
  simp only [hne.1, hne.2.1, hne.2.2.1, hne.2.2.2, if_false, if_true]

theorem inner_semi (fuel : Nat) (j : job_t) (cmd rest : List Char) (valid : Bool) :
    readcmdline.inner (fuel + 1) j cmd valid (';' :: rest)
      = .ok (.done j cmd (';' :: rest) true) := by
  rw [readcmdline.inner]
  have hne : (';' : Char) ≠ '\n' ∧ (';' : Char) ≠ '<' ∧ (';' : Char) ≠ '>' ∧ (';' : Char) ≠ '|'
      ∧ (';' : Char) ≠ '&' := by
    decide
  simp only [hne.1, hne.2.1, hne.2.2.1, hne.2.2.2.1, hne.2.2.2.2, if_false, if_true]

theorem find_last_job_live (R : List job_t) (hR : ∀ x ∈ R, x.freed = false) :
    ∃ last, find_last_job R = .ok last := by
  induction R with
  | nil => exact ⟨none, rfl⟩
  | cons j js ih =>
    have hj : j.freed = false := hR j (List.mem_cons_self _ _)
    cases js with
    | nil => exact ⟨some j, by simp [find_last_job, hj]⟩
    | cons k ks =>
      obtain ⟨last, h⟩ := ih (fun x hx => hR x (List.mem_cons_of_mem _ hx))
      exact ⟨last, by simp only [find_last_job, hj, Bool.false_eq_true, if_false] at h ⊢; exact h⟩

theorem pipeText_lead (c : Command) (ds : List Command) :
    pipeText c ds = c.lead ++ pipeText { c with lead := [] } ds := by
  cases ds <;> simp [pipeText, Command.text]

theorem wf_drop_lead (c : Command) (h : c.wf = true ∧ c.words.length < MAX_ARGS) :
    ({ c with lead := [] } : Command).wf = true
      ∧ ({ c with lead := [] } : Command).words.length < MAX_ARGS := by
  obtain ⟨h1, h2⟩ := h
  refine ⟨?_, by simpa [Command.words] using h2⟩
  simp only [Command.wf, Bool.and_eq_true] at h1 ⊢
  exact ⟨⟨⟨by simp, h1.1.1.2⟩, h1.1.2⟩, h1.2⟩

theorem pipeText_head (c : Command) (ds : List Command) (hwf : c.wf = true) :
    ∃ a t, pipeText { c with lead := [] } ds = a :: t ∧ plain a = true := by
  obtain ⟨_, hw, _, _⟩ := (wf_iff c).1 hwf
  obtain ⟨hne, hp⟩ := (isWord_iff _).1 hw
  obtain ⟨a, w1, hw1⟩ : ∃ a w1, c.word = a :: w1 := by
    cases h : c.word with
    | nil => exact absurd h hne
    | cons a w1 => exact ⟨a, w1, rfl⟩
  have ha : plain a = true := hp a (by rw [hw1]; exact List.mem_cons_self _ _)
  cases ds with
  | nil =>
    exact ⟨a, w1 ++ (sepWords c.more ++ c.trail), by simp [pipeText, Command.text, hw1], ha⟩
  | cons d ds =>
    exact ⟨a, w1 ++ (sepWords c.more ++ (c.trail ++ '|' :: pipeText d ds)),
      by simp [pipeText, Command.text, hw1], ha⟩

theorem map_dropLast_getLast {α β : Type} (f : α → β) (l : List α) (h : l ≠ []) :
    (l.dropLast).map f ++ [f (l.getLast h)] = l.map f := by
  conv_rhs => rw [← List.dropLast_append_getLast h]
  simp

/-- One turn of the outer loop on a pipeline followed by `tail`, given how the
inner loop ends on `tail`. -/
theorem loop_step (R : List job_t) (c : Command) (ds : List Command) (tail : List Char)
    (fuel : Nat) (j : job_t) (cmd rest : List Char) (sequence : Bool) (p : process_t)
    (hR : ∀ x ∈ R, x.freed = false)
    (hwf : ∀ x ∈ c :: ds, x.wf = true ∧ x.words.length < MAX_ARGS)
    (hlen : (pipeText c ds).length ≤ MAX_LEN_CMDLINE - 1)
    (hinner : readcmdline.inner (tail.length + 1)
        { init_job with first_process :=
            (({ c with lead := [] } :: ds).dropLast).map (fun x => processOf x.words) }
        (({ c with lead := [] } :: ds).getLast (List.cons_ne_nil _ _)).text true tail
      = .ok (.done j cmd rest sequence))
    (hp : readprocessinfo init_process cmd = .ok p) :
    readcmdline.loop (fuel + 1) R (pipeText c ds ++ tail) false
      = if !sequence then
          .ok ⟨true, R ++ [{ j with first_process := j.first_process ++ [p] }]⟩
        else
          readcmdline.loop fuel (R ++ [{ j with first_process := j.first_process ++ [p] }])
            rest.tail false := by
  have hc := hwf c (List.mem_cons_self _ _)
  obtain ⟨hl, _, _, _⟩ := (wf_iff c).1 hc.1
  obtain ⟨a, t, hat, ha⟩ := pipeText_head c ds hc.1
  obtain ⟨h0, h1, h2, h3, h4, h5, h6, _⟩ := plain_facts ha
  have hwf0 : ∀ x ∈ ({ c with lead := [] } : Command) :: ds,
      x.wf = true ∧ x.words.length < MAX_ARGS := by
    intro x hx
    rcases List.mem_cons.1 hx with hx | hx
    · rw [hx]; exact wf_drop_lead c hc
    · exact hwf x (List.mem_cons_of_mem _ hx)
  have hlen0 : (pipeText { c with lead := [] } ds).length ≤ MAX_LEN_CMDLINE - 1 := by
    rw [pipeText_lead c ds, List.length_append] at hlen; omega
  have hd : List.dropWhile isspace (pipeText c ds ++ tail) = a :: (t ++ tail) := by
    rw [pipeText_lead c ds, List.append_assoc, hat]
    exact dropWhile_run isspace c.lead _ (fun x hx => blank_isspace (hl x hx))
      (by intro x xs e; simp only [List.cons_append, List.cons.injEq] at e; rw [← e.1]; exact h0)
  have hrun := inner_pipe ds { c with lead := [] } (tail.length + 1) init_job tail hwf0 hlen0
  have hfuel : (a :: (t ++ tail)).length + 1 = (a :: t).length + (tail.length + 1) := by
    simp only [List.length_cons, List.length_append]; omega
  have hinit : ({ init_job with first_process := init_job.first_process
        ++ (({ c with lead := [] } :: ds).dropLast).map (fun x => processOf x.words) } : job_t)
      = { init_job with first_process :=
            (({ c with lead := [] } :: ds).dropLast).map (fun x => processOf x.words) } := by
    simp [init_job]
  rw [hinit, hinner, hat, List.cons_append, ← hfuel] at hrun
  obtain ⟨last, hlast⟩ := find_last_job_live R hR
  rw [readcmdline.loop, hlast, hd]
  simp only [h1, h2, h3, h4, h5, h6, decide_False, Bool.or_false, Bool.false_eq_true, if_false,
    hrun, hp]

theorem text_chars (c : Command) (hwf : c.wf = true) :
    ∀ x ∈ c.text, x ≠ '\n' ∧ x ≠ '\x00' := by
  intro x hx
  have h := text_ordinary c hwf x hx
  exact ⟨(ordinary_facts h).1, ordinary_not_nul h⟩

theorem pipeText_chars (ds : List Command) :
    ∀ (c : Command), (∀ x ∈ c :: ds, x.wf = true) →
      ∀ x ∈ pipeText c ds, x ≠ '\n' ∧ x ≠ '\x00' := by
  induction ds with
  | nil =>
    intro c hwf x hx
    exact text_chars c (hwf c (List.mem_cons_self _ _)) x (by simpa [pipeText] using hx)
  | cons d ds ih =>
    intro c hwf x hx
    simp only [pipeText, List.mem_append, List.mem_cons] at hx
    rcases hx with hx | hx | hx
    · exact text_chars c (hwf c (List.mem_cons_self _ _)) x hx
    · subst hx; decide
    · exact ih d (fun y hy => hwf y (List.mem_cons_of_mem _ hy)) x hx

/-- A line that fits the buffer reaches the parser as it is. -/
theorem readcmdline_line (R : List job_t) (line more : List Char)
    (hchars : ∀ x ∈ line, x ≠ '\n' ∧ x ≠ '\x00') (hlen : line.length ≤ MAX_LEN_CMDLINE - 1) :
    ∃ eol, (eol = [] ∨ eol = ['\n'])
      ∧ readcmdline R (line ++ '\n' :: more)
          = readcmdline.loop ((line ++ eol).length + 1) R (line ++ eol) false := by
  obtain ⟨eol, rest, he, hf⟩ := fgets_line line (MAX_LEN_CMDLINE - 1) more
    (fun x hx => (hchars x hx).1) hlen
  refine ⟨eol, he, ?_⟩
  unfold readcmdline
  rw [hf]
  simp only []
  rw [cstr_append line eol (fun x hx => (hchars x hx).2), cstr_eol eol he]

/-- A line of commands separated by `|`, each of at most `MAX_ARGS - 1` plain
words, that fits the buffer: `readcmdline` returns true and appends one Job
whose pipeline holds one Process per command, in order, with the words of the
command as `argv`, in the foreground and with no redirection. -/
theorem readcmdline_pipeline (R : List job_t) (c : Command) (ds : List Command)
    (more : List Char) (hR : ∀ x ∈ R, x.freed = false)
    (hwf : ∀ x ∈ c :: ds, x.wf = true ∧ x.words.length < MAX_ARGS)
    (hlen : (pipeText c ds).length ≤ MAX_LEN_CMDLINE - 1) :
    readcmdline R (pipeText c ds ++ '\n' :: more)
      = .ok ⟨true, R ++ [{ init_job with
                first_process := (c :: ds).map (fun x => processOf x.words) }]⟩ := by
  obtain ⟨eol, he, hr⟩ := readcmdline_line R (pipeText c ds) more
    (pipeText_chars ds c (fun x hx => (hwf x hx).1)) hlen
  rw [hr]
  have hlast : (({ c with lead := [] } : Command) :: ds).getLast (List.cons_ne_nil _ _)
      ∈ ({ c with lead := [] } : Command) :: ds := List.getLast_mem _
  have hwf0 : ∀ x ∈ ({ c with lead := [] } : Command) :: ds,
      x.wf = true ∧ x.words.length < MAX_ARGS := by
    intro x hx
    rcases List.mem_cons.1 hx with hx | hx
    · rw [hx]; exact wf_drop_lead c (hwf c (List.mem_cons_self _ _))
    · exact hwf x (List.mem_cons_of_mem _ hx)
  have hstep := loop_step R c ds eol (pipeText c ds ++ eol).length _ _ _ false _ hR hwf hlen
    (inner_end eol.length _ _ eol true he)
    (readprocessinfo_command _ (hwf0 _ hlast).1 (hwf0 _ hlast).2)
  rw [hstep]
  simp only [Bool.not_false, if_true]
  rw [map_dropLast_getLast (fun x : Command => processOf x.words)]
  simp [Command.words]

theorem seqText_chars (ds : List Command) :
    ∀ (c : Command), (∀ x ∈ c :: ds, x.wf = true) →
      ∀ x ∈ seqText c ds, x ≠ '\n' ∧ x ≠ '\x00' := by
  induction ds with
  | nil =>
    intro c hwf x hx
    exact text_chars c (hwf c (List.mem_cons_self _ _)) x (by simpa [seqText] using hx)
  | cons d ds ih =>
    intro c hwf x hx
    simp only [seqText, List.mem_append, List.mem_cons] at hx
    rcases hx with hx | hx | hx
    · exact text_chars c (hwf c (List.mem_cons_self _ _)) x hx
    · subst hx; decide
    · exact ih d (fun y hy => hwf y (List.mem_cons_of_mem _ hy)) x hx

theorem seqText_length (ds : List Command) :
    ∀ (c : Command), ds.length ≤ (seqText c ds).length := by
  induction ds with
  | nil => intro c; simp
  | cons d ds ih =>
    intro c
    have := ih d
    simp only [seqText, List.length_append, List.length_cons]; omega

/-- One turn of the outer loop on a single command followed by `tail`. -/
theorem loop_step_one (R : List job_t) (c : Command) (tail : List Char)
    (fuel : Nat) (j : job_t) (rest : List Char) (sequence : Bool)
    (hR : ∀ x ∈ R, x.freed = false)
    (hwf : c.wf = true ∧ c.words.length < MAX_ARGS)
    (hlen : c.text.length ≤ MAX_LEN_CMDLINE - 1)
    (hinner : readcmdline.inner (tail.length + 1) init_job
        ({ c with lead := [] } : Command).text true tail
      = .ok (.done j ({ c with lead := [] } : Command).text rest sequence)) :
    readcmdline.loop (fuel + 1) R (c.text ++ tail) false
      = if !sequence then
          .ok ⟨true, R ++ [{ j with first_process := j.first_process ++ [processOf c.words] }]⟩
        else
          readcmdline.loop fuel
            (R ++ [{ j with first_process := j.first_process ++ [processOf c.words] }])
            rest.tail false := by
  have h0 := wf_drop_lead c hwf
  have hp := readprocessinfo_command _ h0.1 h0.2
  have := loop_step R c [] tail fuel j _ rest sequence _ hR
    (by intro x hx; rw [List.mem_singleton.1 hx]; exact hwf)
    (by simpa [pipeText] using hlen)
    (by simpa [init_job] using hinner) hp
  simpa [pipeText, Command.words] using this

theorem loop_seq (ds : List Command) :
    ∀ (c : Command) (R : List job_t) (fuel : Nat) (eol : List Char),
      (∀ x ∈ R, x.freed = false) →
      (∀ x ∈ c :: ds, x.wf = true ∧ x.words.length < MAX_ARGS) →
      (seqText c ds).length ≤ MAX_LEN_CMDLINE - 1 →
      (eol = [] ∨ eol = ['\n']) →
      ds.length < fuel →
      readcmdline.loop fuel R (seqText c ds ++ eol) false
        = .ok ⟨true, R ++ (c :: ds).map jobOf⟩ := by
  induction ds with
  | nil =>
    intro c R fuel eol hR hwf hlen he hfuel
    obtain ⟨f, rfl⟩ : ∃ f, fuel = f + 1 := ⟨fuel - 1, by omega⟩
    have := loop_step_one R c eol f init_job eol false hR (hwf c (List.mem_cons_self _ _))
      (by simpa [seqText] using hlen) (inner_end eol.length _ _ eol true he)
    simpa [seqText, jobOf, init_job] using this
  | cons d ds ih =>
    intro c R fuel eol hR hwf hlen he hfuel
    obtain ⟨f, rfl⟩ : ∃ f, fuel = f + 1 := ⟨fuel - 1, by omega⟩
    have hlen2 : c.text.length + 1 + (seqText d ds).length ≤ MAX_LEN_CMDLINE - 1 := by
      simp only [seqText, List.length_append, List.length_cons] at hlen; omega
    have ht : seqText c (d :: ds) ++ eol = c.text ++ ';' :: (seqText d ds ++ eol) := by
      simp [seqText]
    have := loop_step_one R c (';' :: (seqText d ds ++ eol)) f init_job _ true hR
      (hwf c (List.mem_cons_self _ _)) (by omega) (inner_semi _ _ _ _ true)
    rw [ht, this]
    simp only [Bool.not_true, Bool.false_eq_true, if_false, List.tail_cons]
    rw [ih d _ f eol
      (by
        intro x hx
        rcases List.mem_append.1 hx with hx | hx
        · exact hR x hx
        · rw [List.mem_singleton.1 hx]; rfl)
      (fun x hx => hwf x (List.mem_cons_of_mem _ hx)) (by omega) he
      (by simp only [List.length_cons] at hfuel; omega)]
    simp [jobOf, init_job]

/-- C2 (amended). For every Registry of live Jobs and every line
`C1 ; C2 ; ... ; Cn` (n at least 2) that fits the line buffer (at most
`MAX_LEN_CMDLINE - 1` characters before its newline, the stream not at
end-of-file), each `Ci` a non-empty sequence of at most `MAX_ARGS - 1` plain
words, `readcmdline` returns true and leaves the Registry followed by exactly
n new Jobs in order, the i-th with one Process whose `argv` is the words of
`Ci`. -/
theorem readcmdline_sequence (R : List job_t) (c d : Command) (ds : List Command)
    (more : List Char) (hR : ∀ x ∈ R, x.freed = false)
    (hwf : ∀ x ∈ c :: d :: ds, x.wf = true ∧ x.words.length < MAX_ARGS)
    (hlen : (seqText c (d :: ds)).length ≤ MAX_LEN_CMDLINE - 1) :
    readcmdline R (seqText c (d :: ds) ++ '\n' :: more)
      = .ok ⟨true, R ++ (c :: d :: ds).map jobOf⟩ := by
  obtain ⟨eol, he, hr⟩ := readcmdline_line R (seqText c (d :: ds)) more
    (seqText_chars (d :: ds) c (fun x hx => (hwf x hx).1)) hlen
  rw [hr]
  exact loop_seq (d :: ds) c R _ eol hR hwf hlen he (by
    have := seqText_length (d :: ds) c
    simp only [List.length_append]; omega)

theorem readiofile_name (name : List Char) :
    ∀ (seek : Nat) (rest : List Char), (∀ x ∈ name, isspace x = false) →
      seek + name.length ≤ MAX_LEN_FILENAME →
      StartsWith (fun c => isspace c = true) rest →
      readiofile seek (name ++ rest) = some (name, rest) := by
  induction name with
  | nil =>
    intro seek rest _ _ hr
    cases rest with
    | nil => rfl
    | cons a rest => simp [readiofile, hr a rest rfl]
  | cons a name ih =>
    intro seek rest hn hlen hr
    have ha : isspace a = false := hn a (List.mem_cons_self _ _)
    have hs : MAX_LEN_FILENAME ≠ seek := by
      simp only [List.length_cons] at hlen; omega
    rw [List.cons_append, readiofile]
    simp only [ha, Bool.false_eq_true, if_false, hs]
    rw [ih (seek + 1) rest (fun x hx => hn x (List.mem_cons_of_mem _ hx))
      (by simp only [List.length_cons] at hlen; omega) hr]

theorem skipblank_run (s eol : List Char) (hs : ∀ x ∈ s, blank x = true)
    (he : eol = [] ∨ eol = ['\n']) : skipblank (s ++ eol) = eol := by
  induction s with
  | nil => rcases he with he | he <;> subst he <;> simp [skipblank, isspace]
  | cons a s ih =>
    have ha := hs a (List.mem_cons_self _ _)
    have h1 : a ≠ '\n' := (ordinary_facts (Or.inl ha)).1
    rw [List.cons_append, skipblank]
    simp only [blank_isspace ha, if_true, h1, if_false]
    exact ih (fun x hx => hs x (List.mem_cons_of_mem _ hx))

theorem startsWith_blank_eol (s eol : List Char) (hs : ∀ x ∈ s, blank x = true)
    (he : eol = [] ∨ eol = ['\n']) : StartsWith (fun c => isspace c = true) (s ++ eol) := by
  intro a t e
  cases s with
  | nil =>
    rcases he with he | he <;> subst he
    · cases e
    · simp only [List.nil_append, List.cons.injEq] at e
      rw [← e.1]; decide
  | cons b s =>
    simp only [List.cons_append, List.cons.injEq] at e
    rw [← e.1]; exact blank_isspace (hs b (List.mem_cons_self _ _))

/-- The inner loop on an output redirection that ends the line. -/
theorem inner_output (fuel : Nat) (j : job_t) (cmd sp1 file sp2 eol : List Char)
    (h1 : ∀ x ∈ sp1, blank x = true) (hf : isWord file = true)
    (hflen : file.length < MAX_LEN_FILENAME) (h2 : ∀ x ∈ sp2, blank x = true)
    (he : eol = [] ∨ eol = ['\n']) :
    readcmdline.inner (fuel + 2) j cmd true ('>' :: (sp1 ++ (file ++ (sp2 ++ eol))))
      = .ok (.done { j with ofile := some file, mystdout := OUTPUT_FD } cmd eol false) := by
  have hw := (isWord_iff _).1 hf
  have hd : List.dropWhile isspace (sp1 ++ (file ++ (sp2 ++ eol))) = file ++ (sp2 ++ eol) :=
    dropWhile_run isspace sp1 _ (fun x hx => blank_isspace (h1 x hx)) (startsWith_word _ _ hf)
  have hr : readiofile 0 (file ++ (sp2 ++ eol)) = some (file, sp2 ++ eol) :=
    readiofile_name file 0 _ (fun x hx => (plain_facts (hw.2 x hx)).1) (by omega)
      (startsWith_blank_eol sp2 eol h2 he)
  have hne : ('>' : Char) ≠ '\n' ∧ ('>' : Char) ≠ '<' := by decide
  rw [readcmdline.inner]
  simp only [hne.1, hne.2, if_false, if_true, hd, hr, Nat.not_le.2 hflen,
    skipblank_run sp2 eol h2 he]
  exact inner_end fuel _ cmd eol false he

/-- C3 (amended). For every line `C > F` that fits the line buffer (at most
`MAX_LEN_CMDLINE - 1` characters before its newline, the stream not at
end-of-file), `C` a non-empty sequence of at most `MAX_ARGS - 1` plain words and
`F` a plain word shorter than `MAX_LEN_FILENAME`, `readcmdline` returns true and
appends exactly one Job with one Process whose `argv` is the words of `C`, with
`ofile = F`, `mystdout = OUTPUT_FD`, `ifile` unset and `mystdin = STDIN_FILENO`. -/
theorem readcmdline_output (R : List job_t) (c : Command) (sp1 file sp2 more : List Char)
    (hR : ∀ x ∈ R, x.freed = false)
    (hwf : c.wf = true ∧ c.words.length < MAX_ARGS)
    (h1 : sp1.all blank = true) (hf : isWord file = true)
    (hflen : file.length < MAX_LEN_FILENAME) (h2 : sp2.all blank = true)
    (hlen : (outputText c sp1 file sp2).length ≤ MAX_LEN_CMDLINE - 1) :
    readcmdline R (outputText c sp1 file sp2 ++ '\n' :: more)
      = .ok ⟨true, R ++ [{ init_job with
                first_process := [processOf c.words],
                ofile := some file, mystdout := OUTPUT_FD,
                ifile := none, mystdin := STDIN_FILENO }]⟩ := by
  have h1a : ∀ x ∈ sp1, blank x = true := List.all_eq_true.1 h1
  have h2a : ∀ x ∈ sp2, blank x = true := List.all_eq_true.1 h2
  have hw := (isWord_iff _).1 hf
  have hchars : ∀ x ∈ outputText c sp1 file sp2, x ≠ '\n' ∧ x ≠ '\x00' := by
    intro x hx
    simp only [outputText, List.mem_append, List.mem_cons] at hx
    rcases hx with hx | hx | hx | hx | hx
    · exact text_chars c hwf.1 x hx
    · subst hx; decide
    · exact ⟨(ordinary_facts (Or.inl (h1a x hx))).1, ordinary_not_nul (Or.inl (h1a x hx))⟩
    · exact ⟨(ordinary_facts (Or.inr (hw.2 x hx))).1, ordinary_not_nul (Or.inr (hw.2 x hx))⟩
    · exact ⟨(ordinary_facts (Or.inl (h2a x hx))).1, ordinary_not_nul (Or.inl (h2a x hx))⟩
  obtain ⟨eol, he, hr⟩ := readcmdline_line R (outputText c sp1 file sp2) more hchars hlen
  rw [hr]
  have ht : outputText c sp1 file sp2 ++ eol = c.text ++ '>' :: (sp1 ++ (file ++ (sp2 ++ eol))) := by
    simp [outputText]
  have hfl : 1 ≤ file.length := by
    cases hfile : file with
    | nil => exact absurd hfile hw.1
    | cons a t => simp
  have htl : ('>' :: (sp1 ++ (file ++ (sp2 ++ eol)))).length + 1
      = (sp1.length + file.length + sp2.length + eol.length) + 2 := by
    simp only [List.length_cons, List.length_append]; omega
  generalize (outputText c sp1 file sp2 ++ eol).length = fuel
  have := loop_step_one R c ('>' :: (sp1 ++ (file ++ (sp2 ++ eol))))
    fuel _ eol false hR hwf
    (by simp only [outputText, List.length_append, List.length_cons] at hlen; omega)
    (by rw [htl]; exact inner_output _ init_job _ sp1 file sp2 eol h1a hf hflen h2a he)
  rw [ht, this]
  simp [init_job]

/-- C4 (amended). For every line `C & T` whose `&` lies within the first
`MAX_LEN_CMDLINE - 1` characters (the stream not at end-of-file), `C` a
non-empty sequence of at most `MAX_ARGS - 1` plain words and `T` any text,
`readcmdline` returns true and appends exactly one Job, in the background, whose
single Process has the words of `C` as `argv`; `T` adds nothing. -/
theorem readcmdline_background (R : List job_t) (c : Command) (trailing more : List Char)
    (hR : ∀ x ∈ R, x.freed = false)
    (hwf : c.wf = true ∧ c.words.length < MAX_ARGS)
    (hlen : c.text.length < MAX_LEN_CMDLINE - 1) :
    readcmdline R (backgroundText c trailing ++ '\n' :: more)
      = .ok ⟨true, R ++ [{ init_job with first_process := [processOf c.words], bg := true }]⟩ := by
  have hs : backgroundText c trailing ++ '\n' :: more
      = c.text ++ '&' :: (trailing ++ '\n' :: more) := by simp [backgroundText]
  obtain ⟨k, hk⟩ : ∃ k, MAX_LEN_CMDLINE - 1 - c.text.length = k + 1 :=
    ⟨MAX_LEN_CMDLINE - 1 - c.text.length - 1, by omega⟩
  obtain ⟨hb, he⟩ := fgets_append c.text (MAX_LEN_CMDLINE - 1) ('&' :: (trailing ++ '\n' :: more))
    (fun x hx => (text_chars c hwf.1 x hx).1) (by omega)
  have hamp : ('&' : Char) ≠ '\n' ∧ ('&' : Char) ≠ '\x00' := by decide
  have hbuf : (fgets (MAX_LEN_CMDLINE - 1) (c.text ++ '&' :: (trailing ++ '\n' :: more))).1
      = c.text ++ '&' :: (fgets k (trailing ++ '\n' :: more)).1 := by
    rw [hb, hk]; simp [fgets, hamp.1]
  have heof : (fgets (MAX_LEN_CMDLINE - 1) (c.text ++ '&' :: (trailing ++ '\n' :: more))).2.1
      = false := fgets_eof _ _ (by simp)
  have hcs : cstr (c.text ++ '&' :: (fgets k (trailing ++ '\n' :: more)).1)
      = c.text ++ '&' :: cstr (fgets k (trailing ++ '\n' :: more)).1 := by
    rw [cstr_append c.text _ (fun x hx => (text_chars c hwf.1 x hx).2)]
    have := cstr_append ['&'] (fgets k (trailing ++ '\n' :: more)).1
      (by intro x hx; rw [List.mem_singleton.1 hx]; exact hamp.2)
    simpa using this
  unfold readcmdline
  rw [hs, heof, hbuf, hcs]
  have := loop_step_one R c ('&' :: cstr (fgets k (trailing ++ '\n' :: more)).1)
    (c.text ++ '&' :: (fgets k (trailing ++ '\n' :: more)).1).length _ _ false hR hwf
    (by omega) (inner_amp _ init_job _ _ true)
  rw [this]
  simp [init_job]

/-! ## The parser on sample lines -/

/-- The line `echo a b | cat` gives one Job of two Processes, `argv`
`echo a b` and then `cat`. -/
theorem readcmdline_echo_cat :
    readcmdline [] "echo a b | cat\n".toList
      = .ok ⟨true, [{ init_job with
            first_process := [processOf ["echo".toList, ['a'], ['b']],
                              processOf ["cat".toList]] }]⟩ := by
  decide

set_option maxRecDepth 100000 in
/-- C1 fails on the code. The line of twenty-one one-letter words is a line of
one command of plain words, 41 characters long, and on it `readprocessinfo`
stores outside the `MAX_ARGS` slots of `argv`. -/
theorem readcmdline_many_words :
    manyWords.wf = true ∧ manyWords.words.length = 21
      ∧ (pipeText manyWords []).length = 41
      ∧ readcmdline [] (pipeText manyWords [] ++ ['\n']) = .error .out_of_bounds := by
  decide

set_option maxRecDepth 100000 in
/-- C2 as stated fails. The line `aaa...a ; true`, whose first word has 119
letters, has the form `C1 ; C2`, yet `fgets` stores only its first 119
characters and only the Job of `C1` is appended. -/
theorem long_line_loses_second_job :
    longCommand.wf = true ∧ cmdTrue.wf = true
      ∧ readcmdline [] (seqText longCommand [cmdTrue] ++ ['\n'])
          = .ok ⟨true, [jobOf longCommand]⟩
      ∧ readcmdline [] (seqText longCommand [cmdTrue] ++ ['\n'])
          ≠ .ok ⟨true, [jobOf longCommand, jobOf cmdTrue]⟩ := by
  decide

theorem readcmdline_sequence_witness :
    (∀ x ∈ ([] : List job_t), x.freed = false)
      ∧ (∀ x ∈ [cmdFalse, cmdTrue], x.wf = true ∧ x.words.length < MAX_ARGS)
      ∧ (seqText cmdFalse [cmdTrue]).length ≤ MAX_LEN_CMDLINE - 1
      ∧ readcmdline [] (seqText cmdFalse [cmdTrue] ++ '\n' :: [])
          = .ok ⟨true, [] ++ [cmdFalse, cmdTrue].map jobOf⟩ :=
  ⟨by decide, by decide, by decide,
    readcmdline_sequence [] cmdFalse cmdTrue [] [] (by decide) (by decide) (by decide)⟩

set_option maxRecDepth 100000 in
/-- C3 as stated fails. The line `aaa...a > f`, whose first word has 119
letters, has the form `C > F`, yet `fgets` stores only its first 119
characters and the Job appended has no output file. -/
theorem long_line_loses_output_file :
    longCommand.wf = true ∧ isWord ['f'] = true
      ∧ readcmdline [] (outputText longCommand [' '] ['f'] [] ++ ['\n'])
          = .ok ⟨true, [jobOf longCommand]⟩
      ∧ (jobOf longCommand).ofile = none
      ∧ (jobOf longCommand).mystdout = STDOUT_FILENO := by
  decide

theorem readcmdline_output_witness :
    (∀ x ∈ ([] : List job_t), x.freed = false)
      ∧ (cmdLs.wf = true ∧ cmdLs.words.length < MAX_ARGS)
      ∧ [' '].all blank = true ∧ isWord "out.txt".toList = true
      ∧ "out.txt".toList.length < MAX_LEN_FILENAME
      ∧ ([] : List Char).all blank = true
      ∧ (outputText cmdLs [' '] "out.txt".toList []).length ≤ MAX_LEN_CMDLINE - 1
      ∧ readcmdline [] (outputText cmdLs [' '] "out.txt".toList [] ++ '\n' :: [])
          = .ok ⟨true, [] ++ [{ init_job with
                first_process := [processOf cmdLs.words],
                ofile := some "out.txt".toList, mystdout := OUTPUT_FD,
                ifile := none, mystdin := STDIN_FILENO }]⟩ :=
  ⟨by decide, by decide, by decide, by decide, by decide, by decide, by decide,
    readcmdline_output [] cmdLs [' '] "out.txt".toList [] [] (by decide) (by decide)
      (by decide) (by decide) (by decide) (by decide) (by decide)⟩

set_option maxRecDepth 100000 in
/-- C4 as stated fails. The line `aaa...a &`, whose first word has 119
letters, has the form `C & T`, yet `fgets` stores only its first 119
characters and the Job appended is not in the background. -/
theorem long_line_loses_background :
    longCommand.wf = true
      ∧ readcmdline [] (backgroundText longCommand [] ++ ['\n'])
          = .ok ⟨true, [jobOf longCommand]⟩
      ∧ (jobOf longCommand).bg = false := by
  decide

theorem readcmdline_background_witness :
    (∀ x ∈ ([] : List job_t), x.freed = false)
      ∧ (cmdSleep.wf = true ∧ cmdSleep.words.length < MAX_ARGS)
      ∧ cmdSleep.text.length < MAX_LEN_CMDLINE - 1
      ∧ readcmdline [] (backgroundText cmdSleep [] ++ '\n' :: [])
          = .ok ⟨true, [] ++ [{ init_job with
                first_process := [processOf cmdSleep.words], bg := true }]⟩ :=
  ⟨by decide, by decide, by decide,
    readcmdline_background [] cmdSleep [] [] (by decide) (by decide) (by decide)⟩

/-! ## Job control -/

theorem job_is_completed_go_iff (ps : List process_t) :
    job_is_completed.go ps ≠ 0 ↔ ∀ p ∈ ps, p.completed = true := by
  induction ps with
  | nil => simp [job_is_completed.go]
  | cons p ps ih =>
    cases h : p.completed <;> simp [job_is_completed.go, h, ih]

/-- C5. `job_is_completed(j)` is non-zero exactly when every Process of the
pipeline has its completed flag set. -/
theorem job_is_completed_iff (j : job_t) :
    job_is_completed j ≠ 0 ↔ ∀ p ∈ j.first_process, p.completed = true :=
  job_is_completed_go_iff j.first_process

theorem job_is_stopped_go_iff (ps : List process_t) :
    job_is_stopped.go ps ≠ 0 ↔ ∀ p ∈ ps, p.completed = true ∨ p.stopped = true := by
  induction ps with
  | nil => simp [job_is_stopped.go]
  | cons p ps ih =>
    cases h : p.completed <;> cases h2 : p.stopped <;> simp [job_is_stopped.go, h, h2, ih]

/-- C6 (amended). `job_is_stopped(j)` is non-zero exactly when every Process of
the pipeline is Stopped or Completed, that is, when none is Running. -/
theorem job_is_stopped_iff (j : job_t) :
    job_is_stopped j ≠ 0 ↔ ∀ p ∈ j.first_process, p.completed = true ∨ p.stopped = true :=
  job_is_stopped_go_iff j.first_process

/-- C6 as stated fails: for a Job whose single Process is Completed,
`job_is_stopped` is non-zero although no Process is Stopped. -/
theorem job_is_stopped_completed_job :
    ¬ (job_is_stopped completedJob ≠ 0 ↔
        ((∀ p ∈ completedJob.first_process, p.completed = true ∨ p.stopped = true)
          ∧ ∃ p ∈ completedJob.first_process, p.stopped = true)) := by
  decide

theorem setpgidCalls_append (a b : List Syscall) :
    setpgidCalls (a ++ b) = setpgidCalls a ++ setpgidCalls b := by
  induction a with
  | nil => rfl
  | cons x a ih => cases x <;> simp [setpgidCalls, ih]

theorem record_status_pid (p : process_t) (status : Int) :
    (record_status p status).pid = p.pid := by
  unfold record_status; split <;> rfl

theorem record_status_flags (p : process_t) (status : Int) :
    (record_status p status).stopped = true ∨ (record_status p status).completed = true := by
  unfold record_status; split <;> simp

/-- The loop of `spawn_job` once the job has a process group. -/
theorem spawn_job_go_group (env : SpawnEnv) (fg : Bool) (ps : List process_t) :
    ∀ (i : Nat) (pgid status : Int) (tr : List Syscall),
      0 < pgid → (∀ k, k < ps.length → 0 < env.fork (i + k)) →
      ∃ ps1 tr1, spawn_job.go env fg i pgid status tr ps = some (ps1, pgid, tr1)
        ∧ ps1.map (fun p => p.pid) = (List.range ps.length).map (fun k => env.fork (i + k))
        ∧ setpgidCalls tr1 = setpgidCalls tr ++ ps1.map (fun p => (p.pid, pgid))
        ∧ ∀ p ∈ ps1, p.stopped = true ∨ p.completed = true := by
  induction ps with
  | nil =>
    intro i pgid status tr _ _
    exact ⟨[], tr, rfl, rfl, by simp, by simp⟩
  | cons p ps ih =>
    intro i pgid status tr hpg hfork
    have h0 : 0 < env.fork i := by simpa using hfork 0 (by simp)
    have hne1 : env.fork i ≠ -1 := by omega
    have hne0 : env.fork i ≠ 0 := by omega
    have hle : ¬ pgid ≤ 0 := by omega
    obtain ⟨ps1, tr1, hgo, hpid, htr, hst⟩ := ih (i + 1) pgid ((env.wait i).getD status)
      (tr ++ [Syscall.fork, Syscall.setpgid (env.fork i) pgid]
        ++ (if fg then [Syscall.waitpid (env.fork i) false, Syscall.tcsetpgrp env.shell_pgid]
            else [Syscall.tcsetpgrp env.shell_pgid, Syscall.waitpid (env.fork i) true]))
      hpg (fun k hk => by
        have := hfork (k + 1) (by simp; omega)
        rwa [show i + (k + 1) = i + 1 + k by omega] at this)
    refine ⟨record_status { p with pid := env.fork i } ((env.wait i).getD status) :: ps1, tr1,
      ?_, ?_, ?_, ?_⟩
    · simp only [spawn_job.go, hne1, hne0, if_false, hle, hgo]
    · simp only [List.map_cons, List.length_cons, List.range_succ_eq_map, List.map_map,
        record_status_pid]
      rw [hpid]
      congr 1
      apply List.map_congr_left
      intro k _
      simp only [Function.comp, Nat.succ_eq_add_one]
      rw [show i + (k + 1) = i + 1 + k by omega]
    · rw [htr]
      cases fg <;> simp [setpgidCalls_append, setpgidCalls, record_status_pid]
    · intro q hq
      rcases List.mem_cons.1 hq with hq | hq
      · rw [hq]; exact record_status_flags _ _
      · exact hst q hq

/-- The loop of `spawn_job` from its start, all forks giving a positive pid:
the pids are recorded, and every `setpgid` names the group the job ends with. -/
theorem spawn_job_go_spec (env : SpawnEnv) (fg : Bool) (ps : List process_t)
    (pgid status : Int) (hfork : ∀ k, k < ps.length → 0 < env.fork k) :
    ∃ ps1 pgid1 tr1, spawn_job.go env fg 0 pgid status [] ps = some (ps1, pgid1, tr1)
      ∧ ps1.map (fun p => p.pid) = (List.range ps.length).map env.fork
      ∧ (ps ≠ [] → pgid ≤ 0 → pgid1 = env.fork 0)
      ∧ (ps ≠ [] → pgid ≤ 0 → setpgidCalls tr1 = ps1.map (fun p => (p.pid, pgid1)))
      ∧ ∀ p ∈ ps1, p.stopped = true ∨ p.completed = true := by
  cases ps with
  | nil => exact ⟨[], pgid, [], rfl, rfl, by simp, by simp, by simp⟩
  | cons p ps =>
    have h0 : 0 < env.fork 0 := hfork 0 (by simp)
    have hne1 : env.fork 0 ≠ -1 := by omega
    have hne0 : env.fork 0 ≠ 0 := by omega
    have hpos : 0 < (if pgid ≤ 0 then env.fork 0 else pgid) := by split <;> omega
    obtain ⟨ps1, tr1, hgo, hpid, htr, hst⟩ := spawn_job_go_group env fg ps 1
      (if pgid ≤ 0 then env.fork 0 else pgid) ((env.wait 0).getD status)
      ([] ++ [Syscall.fork, Syscall.setpgid (env.fork 0) (if pgid ≤ 0 then env.fork 0 else pgid)]
        ++ (if fg then [Syscall.waitpid (env.fork 0) false, Syscall.tcsetpgrp env.shell_pgid]
            else [Syscall.tcsetpgrp env.shell_pgid, Syscall.waitpid (env.fork 0) true]))
      hpos (fun k hk => by
        have := hfork (k + 1) (by simp; omega)
        rwa [show k + 1 = 1 + k by omega] at this)
    refine ⟨record_status { p with pid := env.fork 0 } ((env.wait 0).getD status) :: ps1,
      (if pgid ≤ 0 then env.fork 0 else pgid), tr1, ?_, ?_, ?_, ?_, ?_⟩
    · simp only [spawn_job.go, hne1, hne0, if_false, hgo]
    · simp only [List.map_cons, List.length_cons, List.range_succ_eq_map, List.map_map,
        record_status_pid]
      rw [hpid]
      congr 1
      apply List.map_congr_left
      intro k _
      simp only [Function.comp, Nat.succ_eq_add_one]
      rw [show k + 1 = 1 + k by omega]
    · intro _ hle; simp [hle]
    · intro _ hle
      rw [htr]
      cases fg <;> simp [setpgidCalls_append, setpgidCalls, record_status_pid, hle]
    · intro q hq
      rcases List.mem_cons.1 hq with hq | hq
      · rw [hq]; exact record_status_flags _ _
      · exact hst q hq

/-- C7. For a freshly parsed Job (`pgid = -1`) with at least one Process, when
every `fork` returns a positive pid, `spawn_job` returns with the pid of every
Process recorded, the Job's `pgid` equal to the pid of its first Process, and
every `setpgid` call placing its Process in that same group. -/
theorem spawn_job_shares_pgid (env : SpawnEnv) (j : job_t) (fg : Bool)
    (hfresh : j.pgid = -1) (hn : j.first_process ≠ [])
    (hfork : ∀ i, i < j.first_process.length → 0 < env.fork i) :
    ∃ j1 tr, spawn_job env j fg = some (j1, tr)
      ∧ j1.first_process.map (fun p => p.pid) = (List.range j.first_process.length).map env.fork
      ∧ j1.first_process.head?.map (fun p => p.pid) = some j1.pgid
      ∧ setpgidCalls tr = j1.first_process.map (fun p => (p.pid, j1.pgid)) := by
  obtain ⟨ps1, pgid1, tr1, hgo, hpid, hpg, htr, _⟩ :=
    spawn_job_go_spec env fg j.first_process j.pgid env.status0 hfork
  have hle : j.pgid ≤ 0 := by omega
  refine ⟨{ j with first_process := ps1, pgid := pgid1 }, tr1, ?_, hpid, ?_, htr hn hle⟩
  · simp only [spawn_job, hgo]
  · have h1 := hpg hn hle
    obtain ⟨p, ps, hps⟩ : ∃ p ps, j.first_process = p :: ps := by
      cases h : j.first_process with
      | nil => exact absurd h hn
      | cons p ps => exact ⟨p, ps, rfl⟩
    rw [hps] at hpid
    cases ps1 with
    | nil => simp at hpid
    | cons q qs =>
      simp only [List.map_cons, List.length_cons, List.range_succ_eq_map, List.cons.injEq] at hpid
      simp [hpid.1, h1]

/-- C8. For every Job and any wait results, when every `fork` succeeds,
`spawn_job(j, true)` returns with no Process still Running: each of the
Processes of the Job is marked Stopped or Completed. -/
theorem spawn_job_fg_none_running (env : SpawnEnv) (j : job_t)
    (hfork : ∀ i, i < j.first_process.length → 0 < env.fork i) :
    ∃ j1 tr, spawn_job env j true = some (j1, tr)
      ∧ j1.first_process.length = j.first_process.length
      ∧ ∀ p ∈ j1.first_process, p.stopped = true ∨ p.completed = true := by
  obtain ⟨ps1, pgid1, tr1, hgo, hpid, _, _, hst⟩ :=
    spawn_job_go_spec env true j.first_process j.pgid env.status0 hfork
  refine ⟨{ j with first_process := ps1, pgid := pgid1 }, tr1, ?_, ?_, hst⟩
  · simp only [spawn_job, hgo]
  · have := congrArg List.length hpid
    simpa using this

/-- C9 as stated fails: after `continue_job` a Process that was Stopped is
still marked Stopped. -/
theorem continue_job_keeps_stopped :
    ¬ (∀ p ∈ (continue_job stoppedJob 0).1.first_process, p.stopped = false) := by
  decide

/-- C9 (amended). `continue_job(j)` sends `SIGCONT` to the process group
`-pgid` and nothing else, reports with `perror` exactly when `kill` fails, and
changes no field of the Job or of its Processes. -/
theorem continue_job_signals_group (j : job_t) (killret : Int) :
    (continue_job j killret).1 = j
      ∧ (continue_job j killret).2.1 = [Syscall.kill (-j.pgid) SIGCONT]
      ∧ ((continue_job j killret).2.2 = true ↔ killret < 0) :=
  ⟨rfl, rfl, by simp [continue_job]⟩

/-- C10. On a Job in which every Process is Running, `continue_job` changes
neither a Process nor a field of the Job, whatever `kill` returns, and a second
call leaves the Job as the first one did. -/
theorem continue_job_running_idempotent (j : job_t) (k1 k2 : Int)
    (hrun : ∀ p ∈ j.first_process, p.stopped = false ∧ p.completed = false) :
    (continue_job j k1).1 = j
      ∧ (∀ p ∈ (continue_job j k1).1.first_process, p.stopped = false ∧ p.completed = false)
      ∧ (continue_job (continue_job j k1).1 k2).1 = (continue_job j k1).1 :=
  ⟨rfl, hrun, rfl⟩

theorem spawn_job_shares_pgid_witness :
    sampleJob.pgid = -1 ∧ sampleJob.first_process ≠ []
      ∧ (∀ i, i < sampleJob.first_process.length → 0 < sampleEnv.fork i)
      ∧ ∃ j1 tr, spawn_job sampleEnv sampleJob false = some (j1, tr)
          ∧ j1.first_process.map (fun p => p.pid)
              = (List.range sampleJob.first_process.length).map sampleEnv.fork
          ∧ j1.first_process.head?.map (fun p => p.pid) = some j1.pgid
          ∧ setpgidCalls tr = j1.first_process.map (fun p => (p.pid, j1.pgid)) :=
  ⟨by decide, by decide, by decide,
    spawn_job_shares_pgid sampleEnv sampleJob false (by decide) (by decide) (by decide)⟩

theorem spawn_job_fg_none_running_witness :
    (∀ i, i < sampleJob.first_process.length → 0 < sampleEnv.fork i)
      ∧ ∃ j1 tr, spawn_job sampleEnv sampleJob true = some (j1, tr)
          ∧ j1.first_process.length = sampleJob.first_process.length
          ∧ ∀ p ∈ j1.first_process, p.stopped = true ∨ p.completed = true :=
  ⟨by decide, spawn_job_fg_none_running sampleEnv sampleJob (by decide)⟩

theorem continue_job_running_idempotent_witness :
    (∀ p ∈ sampleJob.first_process, p.stopped = false ∧ p.completed = false)
      ∧ (continue_job sampleJob 0).1 = sampleJob
      ∧ (∀ p ∈ (continue_job sampleJob 0).1.first_process,
            p.stopped = false ∧ p.completed = false)
      ∧ (continue_job (continue_job sampleJob 0).1 (-1)).1 = (continue_job sampleJob 0).1 :=
  ⟨by decide, continue_job_running_idempotent sampleJob 0 (-1) (by decide)⟩

/-! ## Parse errors, the Registry and the main loop -/

/-- What the parser sees of a line that holds no command: nothing after the
whitespace, or one of the symbols that it refuses. -/
theorem fgets_no_command (ws : List Char) :
    ∀ (k : Nat) (rest : List Char), (∀ x ∈ ws, blank x = true) → noCommand rest = true →
      List.dropWhile isspace (cstr (fgets k (ws ++ rest)).1) = []
        ∨ ∃ c t, List.dropWhile isspace (cstr (fgets k (ws ++ rest)).1) = c :: t
            ∧ (c = ';' ∨ c = '&' ∨ c = '<' ∨ c = '>' ∨ c = '|') := by
  induction ws with
  | nil =>
    intro k rest _ hrest
    cases k with
    | zero => left; rfl
    | succ k =>
      cases rest with
      | nil => left; rfl
      | cons c t =>
        simp only [noCommand, Bool.or_eq_true, decide_eq_true_eq] at hrest
        by_cases hn : c = '\n'
        · left; subst hn; simp [fgets, cstr, isspace]
        · right
          have hc : c = ';' ∨ c = '&' ∨ c = '<' ∨ c = '>' ∨ c = '|' := by tauto
          have hnul : c ≠ '\x00' := by rcases hc with h | h | h | h | h <;> subst h <;> decide
          have hsp : isspace c = false := by
            rcases hc with h | h | h | h | h <;> subst h <;> decide
          refine ⟨c, cstr (fgets k t).1, ?_, hc⟩
          simp only [List.nil_append, fgets, hn, if_false, cstr]
          rw [List.takeWhile_cons]
          simp only [bne_iff_ne, ne_eq, hnul, not_false_eq_true, decide_True, if_true]
          rw [List.dropWhile_cons]
          simp [hsp]
  | cons a ws ih =>
    intro k rest hws hrest
    cases k with
    | zero => left; rfl
    | succ k =>
      have ha := hws a (List.mem_cons_self _ _)
      have hn : a ≠ '\n' := (ordinary_facts (Or.inl ha)).1
      have hnul : a ≠ '\x00' := ordinary_not_nul (Or.inl ha)
      have key : List.dropWhile isspace (cstr (fgets (k + 1) (a :: ws ++ rest)).1)
          = List.dropWhile isspace (cstr (fgets k (ws ++ rest)).1) := by
        simp only [List.cons_append, fgets, hn, if_false, cstr]
        rw [List.takeWhile_cons]
        simp only [bne_iff_ne, ne_eq, hnul, not_false_eq_true, decide_True, if_true]
        rw [List.dropWhile_cons]
        simp [blank_isspace ha]
      rw [key]
      exact ih k rest (fun x hx => hws x (List.mem_cons_of_mem _ hx)) hrest

/-- C11. For every Registry of live Jobs and every input whose line holds no
command (after its whitespace comes the end of the line or of the input, or
one of `<`, `>`, `|`, `;`, `&`), `readcmdline` returns false and leaves the
Registry exactly as it was. -/
theorem readcmdline_no_command (R : List job_t) (ws rest : List Char)
    (hR : ∀ x ∈ R, x.freed = false) (hws : ws.all blank = true)
    (hrest : noCommand rest = true) :
    readcmdline R (ws ++ rest) = .ok ⟨false, R⟩ := by
  obtain ⟨last, hlast⟩ := find_last_job_live R hR
  unfold readcmdline
  rw [readcmdline.loop, hlast]
  simp only []
  rcases fgets_no_command ws (MAX_LEN_CMDLINE - 1) rest (List.all_eq_true.1 hws) hrest with h | h
  · rw [h]
  · obtain ⟨c, t, h, hc⟩ := h
    rw [h]
    simp only []
    by_cases h1 : (c = '\n' || (fgets (MAX_LEN_CMDLINE - 1) (ws ++ rest)).2.1) = true
    · rw [if_pos h1]
    · rw [if_neg h1]
      have h2 : (decide (c = ';') || decide (c = '&') || decide (c = '<') || decide (c = '>')
          || decide (c = '|')) = true := by
        rcases hc with h | h | h | h | h <;> subst h <;> decide
      rw [if_pos h2]

theorem readcmdline_no_command_witness :
    (∀ x ∈ [sampleJob], x.freed = false) ∧ [' ', '\t'].all blank = true
      ∧ noCommand "| ls\n".toList = true
      ∧ readcmdline [sampleJob] ([' ', '\t'] ++ "| ls\n".toList) = .ok ⟨false, [sampleJob]⟩ :=
  ⟨by decide, by decide, by decide,
    readcmdline_no_command [sampleJob] [' ', '\t'] "| ls\n".toList (by decide) (by decide)
      (by decide)⟩

/-- C12 fails on the code. On the line `ls > out extra`, read with an empty
Registry, the Job being built is handed to `free_job` and stays linked: the
Registry afterwards holds it, where the claim leaves the Registry empty. -/
theorem readcmdline_error_keeps_job :
    (readcmdline [] lineExtraWord).map (fun r => r.first_job)
        = .ok [{ partialJob with freed := true }]
      ∧ (readcmdline [] lineExtraWord).map (fun r => r.first_job) ≠ .ok [] := by
  decide

/-- C13 fails on the code. On the line `ls > out extra` the parser detects the
error after it has started a Job, and `readcmdline` returns true. -/
theorem readcmdline_error_returns_true :
    (readcmdline [] lineExtraWord).map (fun r => r.ret) = .ok true := by
  decide

/-- The inner loop on `<` followed only by whitespace: the input path becomes
the empty string, and no error is raised. -/
theorem inner_empty_input (fuel : Nat) (j : job_t) (cmd ws eol : List Char) (valid : Bool)
    (hws : ∀ x ∈ ws, blank x = true) (he : eol = [] ∨ eol = ['\n']) :
    readcmdline.inner (fuel + 2) j cmd valid ('<' :: (ws ++ eol))
      = .ok (.done { j with ifile := some [], mystdin := INPUT_FD } cmd [] false) := by
  have hd : List.dropWhile isspace (ws ++ eol) = [] := by
    have h := dropWhile_run isspace (ws ++ eol) []
      (by
        intro x hx
        rcases List.mem_append.1 hx with hx | hx
        · exact blank_isspace (hws x hx)
        · rcases he with he | he <;> subst he
          · cases hx
          · rw [List.mem_singleton.1 hx]; decide)
      (startsWith_nil _)
    simpa using h
  have hne : ('<' : Char) ≠ '\n' := by decide
  rw [readcmdline.inner]
  simp only [hne, if_false, if_true, hd, readiofile, List.length_nil, skipblank]
  have h80 : ¬ MAX_LEN_FILENAME ≤ 0 := by decide
  simp only [h80, if_false]
  exact inner_end fuel _ cmd [] false (Or.inl rfl)

/-- The inner loop on `>` followed only by whitespace. -/
theorem inner_empty_output (fuel : Nat) (j : job_t) (cmd ws eol : List Char) (valid : Bool)
    (hws : ∀ x ∈ ws, blank x = true) (he : eol = [] ∨ eol = ['\n']) :
    readcmdline.inner (fuel + 2) j cmd valid ('>' :: (ws ++ eol))
      = .ok (.done { j with ofile := some [], mystdout := OUTPUT_FD } cmd [] false) := by
  have hd : List.dropWhile isspace (ws ++ eol) = [] := by
    have h := dropWhile_run isspace (ws ++ eol) []
      (by
        intro x hx
        rcases List.mem_append.1 hx with hx | hx
        · exact blank_isspace (hws x hx)
        · rcases he with he | he <;> subst he
          · cases hx
          · rw [List.mem_singleton.1 hx]; decide)
      (startsWith_nil _)
    simpa using h
  have hne : ('>' : Char) ≠ '\n' ∧ ('>' : Char) ≠ '<' := by decide
  rw [readcmdline.inner]
  simp only [hne.1, hne.2, if_false, if_true, hd, readiofile, List.length_nil, skipblank]
  have h80 : ¬ MAX_LEN_FILENAME ≤ 0 := by decide
  simp only [h80, if_false]
  exact inner_end fuel _ cmd [] false (Or.inl rfl)

theorem danglingText_chars (c : Command) (sym : Char) (ws : List Char) (hwf : c.wf = true)
    (hsym : sym = '<' ∨ sym = '>') (hws : ∀ x ∈ ws, blank x = true) :
    ∀ x ∈ danglingText c sym ws, x ≠ '\n' ∧ x ≠ '\x00' := by
  intro x hx
  simp only [danglingText, List.mem_append, List.mem_cons] at hx
  rcases hx with hx | hx | hx
  · exact text_chars c hwf x hx
  · subst hx; rcases hsym with h | h <;> subst h <;> decide
  · exact ⟨(ordinary_facts (Or.inl (hws x hx))).1, ordinary_not_nul (Or.inl (hws x hx))⟩

/-- C14 (amended). For every line `C <` or `C >` in which only whitespace
follows the symbol, that fits the line buffer, `C` a non-empty sequence of at
most `MAX_ARGS - 1` plain words: `readcmdline` returns true and appends one Job
whose Process has the words of `C` and whose input path (after `<`) or output
path (after `>`) is the empty string, with `mystdin = INPUT_FD` or
`mystdout = OUTPUT_FD`. -/
theorem readcmdline_empty_target (R : List job_t) (c : Command) (ws more : List Char)
    (hR : ∀ x ∈ R, x.freed = false)
    (hwf : c.wf = true ∧ c.words.length < MAX_ARGS) (hws : ws.all blank = true)
    (hlen : c.text.length + 1 + ws.length ≤ MAX_LEN_CMDLINE - 1) :
    readcmdline R (danglingText c '<' ws ++ '\n' :: more)
        = .ok ⟨true, R ++ [{ init_job with
                  first_process := [processOf c.words],
                  ifile := some [], mystdin := INPUT_FD }]⟩
      ∧ readcmdline R (danglingText c '>' ws ++ '\n' :: more)
        = .ok ⟨true, R ++ [{ init_job with
                  first_process := [processOf c.words],
                  ofile := some [], mystdout := OUTPUT_FD }]⟩ := by
  have hwsa : ∀ x ∈ ws, blank x = true := List.all_eq_true.1 hws
  have hl : ∀ sym, (danglingText c sym ws).length ≤ MAX_LEN_CMDLINE - 1 := by
    intro sym
    simp only [danglingText, List.length_append, List.length_cons]; omega
  have hct : c.text.length ≤ MAX_LEN_CMDLINE - 1 := by omega
  constructor
  · obtain ⟨eol, he, hr⟩ := readcmdline_line R (danglingText c '<' ws) more
      (danglingText_chars c '<' ws hwf.1 (Or.inl rfl) hwsa) (hl '<')
    rw [hr]
    generalize (danglingText c '<' ws ++ eol).length = fuel
    have ht : danglingText c '<' ws ++ eol = c.text ++ '<' :: (ws ++ eol) := by
      simp [danglingText]
    have htl : ('<' :: (ws ++ eol)).length + 1 = (ws.length + eol.length) + 2 := by
      simp only [List.length_cons, List.length_append]
    have := loop_step_one R c ('<' :: (ws ++ eol)) fuel _ [] false hR hwf hct
      (by rw [htl]; exact inner_empty_input _ init_job _ ws eol true hwsa he)
    rw [ht, this]
    simp [init_job]
  · obtain ⟨eol, he, hr⟩ := readcmdline_line R (danglingText c '>' ws) more
      (danglingText_chars c '>' ws hwf.1 (Or.inr rfl) hwsa) (hl '>')
    rw [hr]
    generalize (danglingText c '>' ws ++ eol).length = fuel
    have ht : danglingText c '>' ws ++ eol = c.text ++ '>' :: (ws ++ eol) := by
      simp [danglingText]
    have htl : ('>' :: (ws ++ eol)).length + 1 = (ws.length + eol.length) + 2 := by
      simp only [List.length_cons, List.length_append]
    have := loop_step_one R c ('>' :: (ws ++ eol)) fuel _ [] false hR hwf hct
      (by rw [htl]; exact inner_empty_output _ init_job _ ws eol true hwsa he)
    rw [ht, this]
    simp [init_job]

/-- C14 as stated fails. On the line `cat <` the parser reports no failure: it
returns true and appends a Job whose input path is the empty string. -/
theorem unterminated_input_is_accepted :
    readcmdline [] (danglingText cmdCat '<' [] ++ ['\n'])
        = .ok ⟨true, [{ jobOf cmdCat with ifile := some [], mystdin := INPUT_FD }]⟩
      ∧ readcmdline [] (danglingText cmdCat '<' [] ++ ['\n']) ≠ .ok ⟨false, []⟩ := by
  decide

theorem readcmdline_empty_target_witness :
    (∀ x ∈ ([] : List job_t), x.freed = false)
      ∧ (cmdCat.wf = true ∧ cmdCat.words.length < MAX_ARGS) ∧ [' '].all blank = true
      ∧ cmdCat.text.length + 1 + [' '].length ≤ MAX_LEN_CMDLINE - 1
      ∧ (readcmdline [] (danglingText cmdCat '<' [' '] ++ '\n' :: [])
          = .ok ⟨true, [] ++ [{ init_job with
                    first_process := [processOf cmdCat.words],
                    ifile := some [], mystdin := INPUT_FD }]⟩
        ∧ readcmdline [] (danglingText cmdCat '>' [' '] ++ '\n' :: [])
          = .ok ⟨true, [] ++ [{ init_job with
                    first_process := [processOf cmdCat.words],
                    ofile := some [], mystdout := OUTPUT_FD }]⟩) :=
  ⟨by decide, by decide, by decide, by decide,
    readcmdline_empty_target [] cmdCat [' '] [] (by decide) (by decide) (by decide)
      (by decide)⟩

/-- C15. For every Registry of live Jobs and every process-group id `g`,
`find_job(g)` returns the first Job in Registry order whose `pgid` is `g`, and
returns NULL exactly when no Job of the Registry has that `pgid`; it returns a
Job only and so leaves the Registry as it is. -/
theorem find_job_first_match (R : List job_t) (g : Int) (hR : ∀ x ∈ R, x.freed = false) :
    (∀ pre j post, R = pre ++ j :: post → j.pgid = g → (∀ x ∈ pre, x.pgid ≠ g) →
        find_job R g = .ok (some j))
      ∧ (find_job R g = .ok none ↔ ∀ x ∈ R, x.pgid ≠ g) := by
  induction R with
  | nil =>
    constructor
    · intro pre j post h; simp at h
    · simp [find_job]
  | cons a R ih =>
    have ha : a.freed = false := hR a (List.mem_cons_self _ _)
    obtain ⟨ih1, ih2⟩ := ih (fun x hx => hR x (List.mem_cons_of_mem _ hx))
    constructor
    · intro pre j post h hj hpre
      cases pre with
      | nil =>
        simp only [List.nil_append, List.cons.injEq] at h
        obtain ⟨h1, _⟩ := h
        subst h1
        simp [find_job, ha, hj]
      | cons b pre =>
        simp only [List.cons_append, List.cons.injEq] at h
        have hb : a.pgid ≠ g := by rw [h.1]; exact hpre b (List.mem_cons_self _ _)
        simp only [find_job, ha, Bool.false_eq_true, if_false, hb]
        exact ih1 pre j post h.2 hj (fun x hx => hpre x (List.mem_cons_of_mem _ hx))
    · by_cases hg : a.pgid = g
      · simp [find_job, ha, hg]
      · simp only [find_job, ha, Bool.false_eq_true, if_false, hg, List.mem_cons, forall_eq_or_imp,
          ne_eq, not_false_eq_true, true_and]
        exact ih2

theorem find_job_first_match_witness :
    (∀ x ∈ [sampleJob, stoppedJob, stoppedJob], x.freed = false)
      ∧ (∀ pre j post, [sampleJob, stoppedJob, stoppedJob] = pre ++ j :: post → j.pgid = 100 →
            (∀ x ∈ pre, x.pgid ≠ 100) →
            find_job [sampleJob, stoppedJob, stoppedJob] 100 = .ok (some j))
      ∧ (find_job [sampleJob, stoppedJob, stoppedJob] 100 = .ok none
          ↔ ∀ x ∈ [sampleJob, stoppedJob, stoppedJob], x.pgid ≠ 100) :=
  ⟨by decide, find_job_first_match [sampleJob, stoppedJob, stoppedJob] 100 (by decide)⟩

theorem delete_job_loop_unlinks (R : List job_t) :
    ∀ (i k : Nat), (∀ x ∈ R, x.freed = false) → k < i → i < k + R.length →
      delete_job.loop i k R = .ok (R.eraseIdx (i - k)) := by
  induction R with
  | nil => intro i k _ _ h; simp at h; omega
  | cons a R ih =>
    intro i k hR hk hi
    have ha : a.freed = false := hR a (List.mem_cons_self _ _)
    cases R with
    | nil => simp at hi; omega
    | cons b R =>
      by_cases h1 : k + 1 = i
      · have : i - k = 1 := by omega
        simp [delete_job.loop, ha, h1, this]
      · have hrec := ih i (k + 1) (fun x hx => hR x (List.mem_cons_of_mem _ hx)) (by omega)
          (by simp only [List.length_cons] at hi ⊢; omega)
        obtain ⟨d, hd⟩ : ∃ d, i - k = d + 1 := ⟨i - k - 1, by omega⟩
        have hd2 : i - (k + 1) = d := by omega
        rw [hd2] at hrec
        simp only [delete_job.loop, ha, Bool.false_eq_true, if_false, h1, hrec, hd,
          List.eraseIdx_cons_succ]

/-- On a Registry of live Jobs, `delete_job` on a Job that is not the first
one leaves exactly the other Jobs, in their order. -/
theorem delete_job_unlinks (R : List job_t) (i : Nat) (hR : ∀ x ∈ R, x.freed = false)
    (h0 : 0 < i) (hi : i < R.length) :
    delete_job R i = .ok (R.eraseIdx i, 1) := by
  have := delete_job_loop_unlinks R i 0 hR h0 (by omega)
  simp only [Nat.sub_zero] at this
  simp only [delete_job, this]
  rw [if_neg (by omega)]

/-- C16 fails on the code. `delete_job` on the only Job of the Registry (the
first one) frees it and leaves it linked as `first_job`: the Registry still
holds it, where the claim leaves the Registry empty. -/
theorem delete_job_keeps_first_job :
    delete_job [sampleJob] 0 = .ok ([{ sampleJob with freed := true }], 1)
      ∧ delete_job [sampleJob, stoppedJob] 0
          = .ok ([{ sampleJob with freed := true }, stoppedJob], 1)
      ∧ delete_job [sampleJob] 0 ≠ .ok ([], 1) := by
  decide

/-- C17 as stated fails. With a Registry of 20 Jobs, the line `ls` is parsed:
`readcmdline` returns true and the Registry holds 21 Jobs. -/
theorem full_registry_grows :
    fullRegistry.length = max_num_jobs
      ∧ (readcmdline fullRegistry "ls\n".toList).map (fun r => (r.ret, r.first_job.length))
          = .ok (true, 21) := by
  decide

/-- C17 (amended). The Registry is not bounded by `max_num_jobs`: when it
holds that many live Jobs or more, `readcmdline` on a line of one well-formed
command (at most `MAX_ARGS - 1` plain words, fitting the line buffer) returns
true and appends the Job, so that the Registry holds more than `max_num_jobs`
Jobs; no Job is dropped. -/
theorem readcmdline_past_max_num_jobs (R : List job_t) (c : Command) (more : List Char)
    (hR : ∀ x ∈ R, x.freed = false) (hfull : max_num_jobs ≤ R.length)
    (hwf : c.wf = true ∧ c.words.length < MAX_ARGS)
    (hlen : c.text.length ≤ MAX_LEN_CMDLINE - 1) :
    readcmdline R (c.text ++ '\n' :: more) = .ok ⟨true, R ++ [jobOf c]⟩
      ∧ max_num_jobs < (R ++ [jobOf c]).length := by
  constructor
  · have := readcmdline_pipeline R c [] more hR
      (by intro x hx; rw [List.mem_singleton.1 hx]; exact hwf) (by simpa [pipeText] using hlen)
    simpa [pipeText, jobOf] using this
  · simp only [List.length_append, List.length_cons, List.length_nil]; omega

theorem readcmdline_past_max_num_jobs_witness :
    (∀ x ∈ fullRegistry, x.freed = false) ∧ max_num_jobs ≤ fullRegistry.length
      ∧ (cmdLs.wf = true ∧ cmdLs.words.length < MAX_ARGS)
      ∧ cmdLs.text.length ≤ MAX_LEN_CMDLINE - 1
      ∧ (readcmdline fullRegistry (cmdLs.text ++ '\n' :: []) = .ok ⟨true, fullRegistry ++ [jobOf cmdLs]⟩
        ∧ max_num_jobs < (fullRegistry ++ [jobOf cmdLs]).length) :=
  ⟨by decide, by decide, by decide, by decide,
    readcmdline_past_max_num_jobs fullRegistry cmdLs [] (by decide) (by decide) (by decide)
      (by decide)⟩

/-- Each Process that the loop of `spawn_job` returns is the Process at the
same position, with the pid of its fork and the status left by its wait. -/
theorem spawn_job_go_get (env : SpawnEnv) (fg : Bool) (ps : List process_t) :
    ∀ (i : Nat) (pgid status : Int) (tr : List Syscall) (ps1 : List process_t) (pgid1 : Int)
      (tr1 : List Syscall),
      spawn_job.go env fg i pgid status tr ps = some (ps1, pgid1, tr1) →
      ∀ (k : Nat) (p1 : process_t), ps1[k]? = some p1 →
        ∃ p st, ps[k]? = some p
          ∧ p1 = record_status { p with pid := env.fork (i + k) } st
          ∧ ∀ s, env.wait (i + k) = some s → st = s := by
  induction ps with
  | nil =>
    intro i pgid status tr ps1 pgid1 tr1 h k p1 hk
    simp only [spawn_job.go, Option.some.injEq, Prod.mk.injEq] at h
    rw [← h.1] at hk
    simp at hk
  | cons p ps ih =>
    intro i pgid status tr ps1 pgid1 tr1 h k p1 hk
    simp only [spawn_job.go] at h
    split at h
    · cases h
    · split at h
      · cases h
      · split at h
        · cases h
        · rename_i ps2 pgid2 tr2 hgo
          simp only [Option.some.injEq, Prod.mk.injEq] at h
          obtain ⟨h1, _, _⟩ := h
          subst h1
          cases k with
          | zero =>
            simp only [List.getElem?_cons_zero, Option.some.injEq] at hk
            refine ⟨p, (env.wait i).getD status, by simp, ?_, ?_⟩
            · rw [← hk]; rfl
            · intro s hs
              simp only [Nat.add_zero] at hs
              simp [hs]
          | succ k =>
            simp only [List.getElem?_cons_succ] at hk
            obtain ⟨q, st, hq, hp1, hst⟩ := ih (i + 1) _ _ _ ps2 pgid2 tr2 hgo k p1 hk
            refine ⟨q, st, by simpa using hq, ?_, ?_⟩
            · rw [hp1, show i + 1 + k = i + (k + 1) by omega]
            · intro s hs
              exact hst s (by rwa [show i + 1 + k = i + (k + 1) by omega])

theorem record_status_fresh (p : process_t) (s : Int)
    (h : p.stopped = false ∧ p.completed = false) :
    (record_status p s).status = s ∧ (record_status p s).stopped = WIFSTOPPED s
      ∧ (record_status p s).completed = !WIFSTOPPED s := by
  unfold record_status
  cases hw : WIFSTOPPED s <;> simp [h.1, h.2]

/-- C19. In a foreground spawn of a Job whose Processes carry no flag yet (as
`init_process` leaves them), every fork succeeding: each Process for which
`waitpid` reports a status `s` records `s` as its raw status and is marked
Stopped and not Completed when `WIFSTOPPED(s)`, Completed and not Stopped
otherwise; and no Process of the Job is marked both Stopped and Completed. -/
theorem spawn_job_fg_records_status (env : SpawnEnv) (j : job_t)
    (hfresh : ∀ p ∈ j.first_process, p.stopped = false ∧ p.completed = false)
    (hfork : ∀ i, i < j.first_process.length → 0 < env.fork i) :
    ∃ j1 tr, spawn_job env j true = some (j1, tr)
      ∧ j1.first_process.length = j.first_process.length
      ∧ (∀ i p s, j1.first_process[i]? = some p → env.wait i = some s →
          p.status = s ∧ p.stopped = WIFSTOPPED s ∧ p.completed = !WIFSTOPPED s)
      ∧ ∀ p ∈ j1.first_process, ¬ (p.stopped = true ∧ p.completed = true) := by
  obtain ⟨ps1, pgid1, tr1, hgo, hpid, _, _, _⟩ :=
    spawn_job_go_spec env true j.first_process j.pgid env.status0 hfork
  refine ⟨{ j with first_process := ps1, pgid := pgid1 }, tr1, ?_, ?_, ?_, ?_⟩
  · simp only [spawn_job, hgo]
  · have := congrArg List.length hpid
    simpa using this
  · intro i p s hp hs
    obtain ⟨q, st, hq, hp1, hst⟩ := spawn_job_go_get env true j.first_process 0 _ _ _ _ _ _ hgo i p hp
    have hqm : q ∈ j.first_process := List.getElem?_mem hq
    simp only [Nat.zero_add] at hp1 hst
    rw [hp1, hst s hs]
    exact record_status_fresh _ s (hfresh q hqm)
  · intro p hp
    obtain ⟨i, hi⟩ := List.getElem?_of_mem hp
    obtain ⟨q, st, hq, hp1, _⟩ := spawn_job_go_get env true j.first_process 0 _ _ _ _ _ _ hgo i p hi
    have hqm : q ∈ j.first_process := List.getElem?_mem hq
    obtain ⟨_, h2, h3⟩ := record_status_fresh { q with pid := env.fork (0 + i) } st (hfresh q hqm)
    rw [hp1, h2, h3]
    cases WIFSTOPPED st <;> simp

theorem spawn_job_fg_records_status_witness :
    (∀ p ∈ sampleJob.first_process, p.stopped = false ∧ p.completed = false)
      ∧ (∀ i, i < sampleJob.first_process.length → 0 < stopEnv.fork i)
      ∧ ∃ j1 tr, spawn_job stopEnv sampleJob true = some (j1, tr)
          ∧ j1.first_process.length = sampleJob.first_process.length
          ∧ (∀ i p s, j1.first_process[i]? = some p → stopEnv.wait i = some s →
              p.status = s ∧ p.stopped = WIFSTOPPED s ∧ p.completed = !WIFSTOPPED s)
          ∧ ∀ p ∈ j1.first_process, ¬ (p.stopped = true ∧ p.completed = true) :=
  ⟨by decide, by decide,
    spawn_job_fg_records_status stopEnv sampleJob (by decide) (by decide)⟩

/-- C20 fails on the code. In a background spawn in which `waitpid` with
`WNOHANG` returns 0 and stores nothing, the Process is marked Completed from
the content of the local `status`, here 0. -/
theorem spawn_job_bg_marks_completed :
    (spawn_job quietEnv singleJob false).map (fun r => r.1.first_process)
      = some [{ init_process with pid := 100, status := 0, completed := true }] := by
  decide

/-- In a background spawn every Process is marked Stopped or Completed, whatever
`waitpid` reports. -/
theorem spawn_job_bg_none_running (env : SpawnEnv) (j : job_t)
    (hfork : ∀ i, i < j.first_process.length → 0 < env.fork i) :
    ∃ j1 tr, spawn_job env j false = some (j1, tr)
      ∧ ∀ p ∈ j1.first_process, p.stopped = true ∨ p.completed = true := by
  obtain ⟨ps1, pgid1, tr1, hgo, _, _, _, hst⟩ :=
    spawn_job_go_spec env false j.first_process j.pgid env.status0 hfork
  exact ⟨{ j with first_process := ps1, pgid := pgid1 }, tr1, by simp only [spawn_job, hgo], hst⟩

theorem readprocessinfo_loop_pid (fuel : Nat) :
    ∀ (p : process_t) (argc : Nat) (cmd : List Char) (q : process_t),
      readprocessinfo.loop fuel p argc cmd = .ok q → q.pid = p.pid := by
  induction fuel with
  | zero => intro p argc cmd q h; simp [readprocessinfo.loop] at h
  | succ fuel ih =>
    intro p argc cmd q h
    unfold readprocessinfo.loop at h
    split at h
    · split at h
      · cases h
      · simp only [Except.ok.injEq] at h
        rw [← h]
    · split at h
      · cases h
      · have := ih _ _ _ _ h
        simpa using this

theorem readprocessinfo_pid (p q : process_t) (cmd : List Char)
    (h : readprocessinfo p cmd = .ok q) : q.pid = p.pid := by
  unfold readprocessinfo at h
  split at h
  · simp only [Except.ok.injEq] at h
    rw [h]
  · exact readprocessinfo_loop_pid _ _ _ _ _ h

theorem unspawned_append (j : job_t) (p : process_t) (hj : Unspawned j) (hp : p.pid = -1) :
    Unspawned { j with first_process := j.first_process ++ [p] } := by
  intro q hq
  rcases List.mem_append.1 hq with hq | hq
  · exact hj q hq
  · rw [List.mem_singleton.1 hq]; exact hp

theorem inner_unspawned (fuel : Nat) :
    ∀ (j : job_t) (cmd : List Char) (valid : Bool) (rest : List Char) (res : Inner),
      readcmdline.inner fuel j cmd valid rest = .ok res → Unspawned j → Unspawned res.job := by
  induction fuel with
  | zero => intro j cmd valid rest res h; simp [readcmdline.inner] at h
  | succ fuel ih =>
    intro j cmd valid rest res h hj
    unfold readcmdline.inner at h
    split at h
    · simp only [Except.ok.injEq] at h
      rw [← h]; exact hj
    · split at h
      · simp only [Except.ok.injEq] at h
        rw [← h]; exact hj
      · split at h
        · split at h
          · simp only [Except.ok.injEq] at h
            rw [← h]; exact hj
          · split at h
            · cases h
            · exact ih _ _ _ _ _ h hj
        · split at h
          · split at h
            · simp only [Except.ok.injEq] at h
              rw [← h]; exact hj
            · split at h
              · cases h
              · exact ih _ _ _ _ _ h hj
          · split at h
            · split at h
              · cases h
              · rename_i p hp
                exact ih _ _ _ _ _ h (unspawned_append j p hj (readprocessinfo_pid _ _ _ hp))
            · split at h
              · simp only [Except.ok.injEq] at h
                rw [← h]; exact hj
              · split at h
                · simp only [Except.ok.injEq] at h
                  rw [← h]; exact hj
                · split at h
                  · simp only [Except.ok.injEq] at h
                    rw [← h]; exact hj
                  · split at h
                    · simp only [Except.ok.injEq] at h
                      rw [← h]; exact hj
                    · split at h
                      · simp only [Except.ok.injEq] at h
                        rw [← h]; exact hj
                      · exact ih _ _ _ _ _ h hj

theorem init_job_unspawned : Unspawned init_job := by
  intro p hp; simp [init_job] at hp

/-- Whatever the line, `readcmdline` only appends to the Registry, and the
jobs it appends have no process created. -/
theorem readcmdline_loop_appends (fuel : Nat) :
    ∀ (R : List job_t) (cmdline : List Char) (eof : Bool) (r : ParseResult),
      readcmdline.loop fuel R cmdline eof = .ok r →
      ∃ new, r.first_job = R ++ new ∧ ∀ j ∈ new, Unspawned j := by
  induction fuel with
  | zero => intro R cmdline eof r h; simp [readcmdline.loop] at h
  | succ fuel ih =>
    intro R cmdline eof r h
    unfold readcmdline.loop at h
    split at h
    · cases h
    · split at h
      · simp only [Except.ok.injEq] at h
        exact ⟨[], by rw [← h]; simp, by simp⟩
      · split at h
        · simp only [Except.ok.injEq] at h
          exact ⟨[], by rw [← h]; simp, by simp⟩
        · split at h
          · simp only [Except.ok.injEq] at h
            exact ⟨[], by rw [← h]; simp, by simp⟩
          · split at h
            · cases h
            · rename_i j hin
              simp only [Except.ok.injEq] at h
              have hu := inner_unspawned _ _ _ _ _ _ hin init_job_unspawned
              refine ⟨[(invokefree j).1], by rw [← h], ?_⟩
              intro x hx
              rw [List.mem_singleton.1 hx]
              exact hu
            · rename_i j cmd rest sequence hin
              have hu : Unspawned j := inner_unspawned _ _ _ _ _ _ hin init_job_unspawned
              split at h
              · cases h
              · rename_i p hp
                have hu2 := unspawned_append j p hu (readprocessinfo_pid _ _ _ hp)
                split at h
                · simp only [Except.ok.injEq] at h
                  refine ⟨[{ j with first_process := j.first_process ++ [p] }], by rw [← h], ?_⟩
                  intro x hx
                  rw [List.mem_singleton.1 hx]
                  exact hu2
                · obtain ⟨new, hnew, hall⟩ := ih _ _ _ _ h
                  refine ⟨{ j with first_process := j.first_process ++ [p] } :: new,
                    by rw [hnew]; simp, ?_⟩
                  intro x hx
                  rcases List.mem_cons.1 hx with hx | hx
                  · rw [hx]; exact hu2
                  · exact hall x hx

theorem spawn_job_go_pgid (env : SpawnEnv) (fg : Bool) (henv : ∀ i, -1 ≤ env.fork i)
    (ps : List process_t) :
    ∀ (i : Nat) (pgid status : Int) (tr : List Syscall) (ps1 : List process_t) (pgid1 : Int)
      (tr1 : List Syscall),
      spawn_job.go env fg i pgid status tr ps = some (ps1, pgid1, tr1) →
      (ps = [] → ps1 = []) ∧ (0 < pgid → pgid1 = pgid) ∧ (ps ≠ [] → 0 < pgid1) := by
  induction ps with
  | nil =>
    intro i pgid status tr ps1 pgid1 tr1 h
    simp only [spawn_job.go, Option.some.injEq, Prod.mk.injEq] at h
    exact ⟨fun _ => h.1.symm, fun _ => h.2.1.symm, fun h0 => absurd rfl h0⟩
  | cons p ps ih =>
    intro i pgid status tr ps1 pgid1 tr1 h
    simp only [spawn_job.go] at h
    split at h
    · cases h
    · rename_i hne1
      split at h
      · cases h
      · rename_i hne0
        split at h
        · cases h
        · rename_i ps2 pgid2 tr2 hgo
          simp only [Option.some.injEq, Prod.mk.injEq] at h
          obtain ⟨_, h2, _⟩ := h
          subst h2
          have hpos : 0 < env.fork i := by have := henv i; omega
          have hpg : 0 < (if pgid ≤ 0 then env.fork i else pgid) := by split <;> omega
          obtain ⟨_, hk, _⟩ := ih _ _ _ _ _ _ _ hgo
          have e := hk hpg
          refine ⟨fun h0 => (by cases h0), fun h0 => ?_, fun _ => by rw [e]; exact hpg⟩
          rw [e, if_neg (by omega)]

theorem spawn_job_inv (env : SpawnEnv) (henv : ∀ i, -1 ≤ env.fork i) (j j1 : job_t) (fg : Bool)
    (tr : List Syscall) (h : spawn_job env j fg = some (j1, tr)) :
    j1.pgid < 0 → Unspawned j1 := by
  unfold spawn_job at h
  split at h
  · cases h
  · rename_i ps pgid tr1 hgo
    simp only [Option.some.injEq, Prod.mk.injEq] at h
    obtain ⟨h1, _⟩ := h
    subst h1
    obtain ⟨hnil, _, hpos⟩ := spawn_job_go_pgid env fg henv _ _ _ _ _ _ _ _ hgo
    intro hneg q hq
    by_cases hps : j.first_process = []
    · simp only [hnil hps] at hq
      cases hq
    · have := hpos hps
      simp only at hneg
      omega

theorem dispatch_go_inv (env : Nat → SpawnEnv) (henv : ∀ k i, -1 ≤ (env k).fork i)
    (R : List job_t) :
    ∀ (k : Nat) (isBuiltIn : Bool) (jj : Option Nat) (d : PassResult),
      dispatch.go env k isBuiltIn jj R = .ok (some d) → RegInv R →
      RegInv d.first_job
        ∧ ∀ i, d.jobs_job = some i →
            jj = some i ∨ (k ≤ i ∧ ∃ j, d.first_job[i - k]? = some j ∧ Unspawned j) := by
  induction R with
  | nil =>
    intro k isBuiltIn jj d h _
    simp only [dispatch.go, Except.ok.injEq, Option.some.injEq] at h
    subst h
    exact ⟨(by intro j hj; cases hj), fun i hi => Or.inl hi⟩
  | cons j js ih =>
    intro k isBuiltIn jj d h hR
    have hjs : RegInv js := fun x hx => hR x (List.mem_cons_of_mem _ hx)
    have hj : j.pgid < 0 → Unspawned j := hR j (List.mem_cons_self _ _)
    have shift : ∀ (x : job_t) (r : PassResult) (i : Nat),
        (k + 1 ≤ i ∧ ∃ y, r.first_job[i - (k + 1)]? = some y ∧ Unspawned y) →
        (k ≤ i ∧ ∃ y, (x :: r.first_job)[i - k]? = some y ∧ Unspawned y) := by
      intro x r i hi
      obtain ⟨h1, y, h2, h3⟩ := hi
      refine ⟨by omega, y, ?_, h3⟩
      rw [show i - k = (i - (k + 1)) + 1 by omega, List.getElem?_cons_succ]
      exact h2
    unfold dispatch.go at h
    split at h
    · cases h
    · split at h
      · rename_i hneg
        split at h
        · cases h
        · rename_i b hb
          split at h
          · cases h
          · split at h
            · split at h
              · cases h
              · cases h
              · rename_i r hgo
                simp only [Except.ok.injEq, Option.some.injEq] at h
                subst h
                obtain ⟨h1, h2⟩ := ih _ _ _ _ hgo hjs
                constructor
                · intro x hx
                  rcases List.mem_cons.1 hx with hx | hx
                  · subst hx
                    intro hx2
                    have : Unspawned j := hj hneg
                    split <;> exact this
                  · exact h1 x hx
                · intro i hi
                  rcases h2 i hi with h3 | h3
                  · by_cases hbj : b = some BuiltIn.jobs
                    · right
                      simp only [hbj, if_true, Option.some.injEq] at h3
                      subst h3
                      refine ⟨Nat.le_refl _, j, ?_, hj hneg⟩
                      simp [hbj]
                    · left
                      simpa [hbj] using h3
                  · right
                    exact shift _ r i h3
            · split at h
              · cases h
              · rename_i j1 tr hsp
                split at h
                · cases h
                · cases h
                · rename_i r hgo
                  simp only [Except.ok.injEq, Option.some.injEq] at h
                  subst h
                  obtain ⟨h1, h2⟩ := ih _ _ _ _ hgo hjs
                  constructor
                  · intro x hx
                    rcases List.mem_cons.1 hx with hx | hx
                    · subst hx
                      exact spawn_job_inv (env k) (henv k) j _ _ tr hsp
                    · exact h1 x hx
                  · intro i hi
                    rcases h2 i hi with h3 | h3
                    · exact Or.inl h3
                    · exact Or.inr (shift _ r i h3)
      · split at h
        · cases h
        · cases h
        · rename_i r hgo
          simp only [Except.ok.injEq, Option.some.injEq] at h
          subst h
          obtain ⟨h1, h2⟩ := ih _ _ _ _ hgo hjs
          constructor
          · intro x hx
            rcases List.mem_cons.1 hx with hx | hx
            · subst hx; exact hj
            · exact h1 x hx
          · intro i hi
            rcases h2 i hi with h3 | h3
            · exact Or.inl h3
            · exact Or.inr (shift _ r i h3)

theorem delete_job_loop_mem (i : Nat) (R : List job_t) :
    ∀ (k : Nat) (R1 : List job_t), delete_job.loop i k R = .ok R1 → ∀ x ∈ R1, x ∈ R := by
  induction R with
  | nil =>
    intro k R1 h x hx
    simp only [delete_job.loop, Except.ok.injEq] at h
    rw [← h] at hx; exact hx
  | cons a R ih =>
    intro k R1 h x hx
    unfold delete_job.loop at h
    split at h
    · cases h
    · split at h
      · simp only [Except.ok.injEq] at h
        rw [← h] at hx; exact hx
      · rename_i n ns
        split at h
        · simp only [Except.ok.injEq] at h
          rw [← h] at hx
          rcases List.mem_cons.1 hx with hx | hx
          · rw [hx]; exact List.mem_cons_self _ _
          · exact List.mem_cons_of_mem _ (List.mem_cons_of_mem _ hx)
        · split at h
          · cases h
          · rename_i r hr
            simp only [Except.ok.injEq] at h
            rw [← h] at hx
            rcases List.mem_cons.1 hx with hx | hx
            · rw [hx]; exact List.mem_cons_self _ _
            · exact List.mem_cons_of_mem _ (ih _ _ hr x hx)

theorem delete_job_inv (R : List job_t) (i : Nat) (r : List job_t × Int)
    (h : delete_job R i = .ok r) (hR : RegInv R) : RegInv r.1 := by
  unfold delete_job at h
  split at h
  · cases h
  · rename_i js hjs
    simp only [Except.ok.injEq] at h
    subst h
    have hmem := delete_job_loop_mem i R 0 js hjs
    have hinv : RegInv js := fun x hx => hR x (hmem x hx)
    by_cases h0 : i = 0
    · simp only [h0, if_true]
      cases js with
      | nil => exact fun x hx => by cases hx
      | cons a js =>
        intro x hx
        simp only [List.modifyHead, List.mem_cons] at hx
        rcases hx with hx | hx
        · subst hx
          exact hinv a (List.mem_cons_self _ _)
        · exact hinv x (List.mem_cons_of_mem _ hx)
    · simp only [h0, if_false]
      exact hinv

/-- One turn of the main loop keeps the invariant of the Registry, and the job
it hands to `delete_job`, if any, has no process created. -/
theorem main_pass_inv (env : Nat → SpawnEnv) (henv : ∀ k i, -1 ≤ (env k).fork i)
    (s s1 : ShellState) (h : main_pass env s = .ok (some s1))
    (hR : RegInv s.first_job) (hrem : ∀ j ∈ s.removed, Unspawned j) :
    RegInv s1.first_job ∧ ∀ j ∈ s1.removed, Unspawned j := by
  unfold main_pass at h
  split at h
  · cases h
  · rename_i r hr
    obtain ⟨new, hnew, hall⟩ := readcmdline_loop_appends _ _ _ _ _ hr
    have hR1 : RegInv r.first_job := by
      intro x hx hneg
      rw [hnew] at hx
      rcases List.mem_append.1 hx with hx | hx
      · exact hR x hx hneg
      · exact hall x hx
    split at h
    · split at h
      · cases h
      · simp only [Except.ok.injEq, Option.some.injEq] at h
        subst h
        exact ⟨hR1, hrem⟩
    · split at h
      · cases h
      · cases h
      · rename_i d hd
        obtain ⟨hd1, hd2⟩ := dispatch_go_inv env henv _ _ _ _ _ hd hR1
        split at h
        · simp only [Except.ok.injEq, Option.some.injEq] at h
          subst h
          exact ⟨hd1, hrem⟩
        · rename_i i hi
          split at h
          · cases h
          · rename_i r1 hr1
            simp only [Except.ok.injEq, Option.some.injEq] at h
            subst h
            refine ⟨delete_job_inv _ _ _ hr1 hd1, ?_⟩
            intro x hx
            rcases List.mem_append.1 hx with hx | hx
            · exact hrem x hx
            · rcases hd2 i hi with h3 | h3
              · cases h3
              · obtain ⟨_, y, hy, hu⟩ := h3
                simp only [Nat.sub_zero] at hy
                rw [hy] at hx
                simp only [Option.toList, List.mem_singleton] at hx
                rw [hx]; exact hu

theorem main_loop_inv (env : Nat → Nat → SpawnEnv) (henv : ∀ t k i, -1 ≤ (env t k).fork i)
    (n : Nat) :
    ∀ (t : Nat) (s s1 : ShellState), main_loop env n t s = .ok s1 →
      RegInv s.first_job → (∀ j ∈ s.removed, Unspawned j) →
      RegInv s1.first_job ∧ ∀ j ∈ s1.removed, Unspawned j := by
  induction n with
  | zero =>
    intro t s s1 h hR hrem
    simp only [main_loop, Except.ok.injEq] at h
    subst h
    exact ⟨hR, hrem⟩
  | succ n ih =>
    intro t s s1 h hR hrem
    unfold main_loop at h
    split at h
    · cases h
    · simp only [Except.ok.injEq] at h
      subst h
      exact ⟨hR, hrem⟩
    · rename_i s2 hs2
      obtain ⟨h1, h2⟩ := main_pass_inv (env t) (henv t) s s2 hs2 hR hrem
      exact ih _ _ _ h h1 h2

/-- C18. In every run of the main loop from an empty Registry, `fork` giving
-1, 0 or a pid, every Job handed to `delete_job` has, at that moment, no
Process that was ever created: each `pid` is still the -1 of `init_process`.
Hence no Job is removed while a Process of it is created and not reaped. -/
theorem main_loop_removes_unspawned (env : Nat → Nat → SpawnEnv) (n : Nat)
    (stdin : List Char) (s : ShellState)
    (henv : ∀ t k i, -1 ≤ (env t k).fork i)
    (hrun : main_loop env n 0 ⟨[], stdin, []⟩ = .ok s) :
    ∀ j ∈ s.removed, ∀ p ∈ j.first_process, p.pid = -1 :=
  (main_loop_inv env henv n 0 _ s hrun (fun j hj => by cases hj) (fun j hj => by cases hj)).2

theorem main_loop_removes_unspawned_witness :
    (∀ t k i, -1 ≤ (sampleEnvs t k).fork i)
      ∧ main_loop sampleEnvs 2 0 ⟨[], "ls\njobs\n".toList, []⟩ = .ok sampleFinal
      ∧ ∀ j ∈ sampleFinal.removed, ∀ p ∈ j.first_process, p.pid = -1 :=
  ⟨fun _ _ i => by simp only [sampleEnvs, sampleEnv]; omega, by decide,
    main_loop_removes_unspawned sampleEnvs 2 "ls\njobs\n".toList sampleFinal
      (fun _ _ i => by simp only [sampleEnvs, sampleEnv]; omega) (by decide)⟩

/-! ## Empty argument vectors, the bound on arguments, and the dispatch pass -/

/-- C21 fails on the code. On the line `ls |` `readcmdline` returns true and
the Job appended has a second Process with `argc = 0` and `argv[0]` NULL; the
pass of `main` over that Registry then hands the NULL to `strcmp`. -/
theorem readcmdline_empty_stage :
    readcmdline [] "ls |\n".toList = .ok ⟨true, [emptyStageJob]⟩
      ∧ (∃ p ∈ emptyStageJob.first_process, p.argc = 0 ∧ p.argv.head? = some none)
      ∧ dispatch (fun _ => sampleEnv) [emptyStageJob] = .error .null_pointer := by
  refine ⟨by decide, ⟨init_process, by decide, by decide, by decide⟩, by decide⟩

/-- C22 fails on the code. The command text of twenty-one one-letter words
comes from a line of 41 characters; the first twenty words fill `argv[0]` to
`argv[19]`, and `readprocessinfo` stores the next one at `argv[20]`, outside
the `MAX_ARGS` slots. -/
theorem readprocessinfo_stores_outside :
    manyWords.text.length ≤ MAX_LEN_CMDLINE - 1
      ∧ init_process.argv.length = MAX_ARGS
      ∧ store (processOf (List.replicate MAX_ARGS ['a'])).argv MAX_ARGS (some ['a']) = none
      ∧ readprocessinfo init_process manyWords.text = .error .out_of_bounds := by
  decide

/-- C23 fails on the code. In the pass over the Registry of the line `cd ; ls`
the Job of `ls`, not yet spawned, in the foreground and naming no built-in, is
not spawned: `isBuiltIn`, set at the Job of `cd`, is never reset.  Alone in the
Registry the same Job is spawned in the foreground. -/
theorem dispatch_skips_job_after_built_in :
    (readcmdline [] "cd ; ls\n".toList).map (fun r => r.first_job) = .ok cdThenLs
      ∧ (dispatch (fun _ => sampleEnv) cdThenLs).map (fun d => d.map (fun r => (r.first_job, r.spawned)))
          = .ok (some (cdThenLs, []))
      ∧ (dispatch (fun _ => sampleEnv) [jobOf (oneWord "ls".toList)]).map
            (fun d => d.map (fun r => r.spawned))
          = .ok (some [(0, true)]) := by
  decide

/-- In a pass over a Registry of live Jobs of which none that is not yet
spawned names a built-in, every fork succeeding: each Job with `pgid < 0` is
spawned exactly once, in the foreground when `bg` is false, and no Job with
`pgid >= 0` is spawned. -/
theorem dispatch_without_built_in (env : Nat → SpawnEnv)
    (hfork : ∀ k i, 0 < (env k).fork i) (R : List job_t) :
    ∀ (k : Nat) (jj : Option Nat),
      (∀ j ∈ R, j.freed = false) →
      (∀ j ∈ R, j.pgid < 0 → scan_built_in j.first_process = .ok none) →
      ∃ d, dispatch.go env k false jj R = .ok (some d)
        ∧ d.spawned = expectedSpawns k R ∧ d.jobs_job = jj
        ∧ d.first_job.length = R.length := by
  induction R with
  | nil => intro k jj _ _; exact ⟨⟨[], jj, [], []⟩, rfl, rfl, rfl, rfl⟩
  | cons j js ih =>
    intro k jj hlive hscan
    have hj : j.freed = false := hlive j (List.mem_cons_self _ _)
    obtain ⟨d, hd, hs, hjj, hl⟩ := ih (k + 1) jj
      (fun x hx => hlive x (List.mem_cons_of_mem _ hx))
      (fun x hx => hscan x (List.mem_cons_of_mem _ hx))
    by_cases hneg : j.pgid < 0
    · have hsc := hscan j (List.mem_cons_self _ _) hneg
      obtain ⟨ps1, pgid1, tr1, hgo, _, _, _, _⟩ :=
        spawn_job_go_spec (env k) (!j.bg) j.first_process j.pgid (env k).status0
          (fun i _ => hfork k i)
      have hsp : spawn_job (env k) j (!j.bg)
          = some ({ j with first_process := ps1, pgid := pgid1 }, tr1) := by
        simp only [spawn_job, hgo]
      refine ⟨{ d with first_job := { j with first_process := ps1, pgid := pgid1 } :: d.first_job,
                       spawned := (k, !j.bg) :: d.spawned, trace := tr1 ++ d.trace }, ?_, ?_, hjj, ?_⟩
      · unfold dispatch.go
        simp [hj, hneg, hsc, hsp, hd]
      · simp [expectedSpawns, hneg, hs]
      · simp [hl]
    · refine ⟨{ d with first_job := j :: d.first_job }, ?_, ?_, hjj, ?_⟩
      · unfold dispatch.go
        simp [hj, hneg, hd]
      · simp [expectedSpawns, hneg, hs]
      · simp [hl]

end Dsh
